import Mathlib

/-!
# Verification of the loki loop-normalization and affine dependency-analysis core

Shallow embedding of the analysis core of the `loki` source-to-source
transformation framework:

* `loki/analyse/analyse_dependency_detection.py` — loop-bound normalization
  and affine access-function construction;
* `loki/analyse/util_linear_algebra.py` — integer Gaussian elimination under
  the GCD condition and decomposition into one-dimensional systems;
* `loki/expression/interval_arithmetics.py` — interval arithmetic on
  `RangeIndex` bounds.

Python integers are arbitrary precision, so they are modelled as `Int`.
Python's floor division `//` is `Int.fdiv`; Python's and numpy's remainder
`%` with a nonzero divisor is `Int.fmod` (result carries the divisor's
sign); numpy's integer remainder with divisor `0` evaluates to `0`
(emitting a `RuntimeWarning`, not an exception), which is modelled
explicitly by `np_remainder`.

Symbolic-expression utilities that the analysis modules import from the
wider `loki` package (`simplify`, `accumulate_polynomial_terms`, the IR
node classes and the tree-rewriting visitors) are modelled from their
specification, as noted in the respective doc comments.
-/

namespace LokiProof

/-! ## Integer floor-division facts -/

/-- Floor division is invariant under negating both operands. -/
theorem fdiv_neg_neg (x c : Int) : Int.fdiv (-x) (-c) = Int.fdiv x c := by
  rcases eq_or_ne c 0 with rfl | hc
  · simp
  rcases x with (_ | m) | m <;> rcases c with (_ | n) | n <;>
    first
      | rfl
      | exact absurd rfl hc

/-- Shifting the dividend down by the divisor decrements a floor division. -/
theorem fdiv_sub_right (x : Int) {c : Int} (hc : c ≠ 0) :
    (x - c).fdiv c = x.fdiv c - 1 := by
  rcases lt_or_gt_of_ne hc with hneg | hpos
  · have h1 : -(x - c) = -x - -c := by ring
    have h2 : (-c : Int) ≠ 0 := by omega
    calc (x - c).fdiv c = (-(x - c)).fdiv (-c) := (fdiv_neg_neg _ _).symm
      _ = (-x - -c).fdiv (-c) := by rw [h1]
      _ = (-x).fdiv (-c) - 1 := by
            have h3 : -x - -c = -x + -1 * -c := by ring
            rw [Int.fdiv_eq_ediv _ (by omega), Int.fdiv_eq_ediv _ (by omega),
              h3, Int.add_mul_ediv_right _ _ h2]
            ring
      _ = x.fdiv c - 1 := by rw [fdiv_neg_neg]
  · have h3 : x - c = x + -1 * c := by ring
    rw [Int.fdiv_eq_ediv _ (by omega), Int.fdiv_eq_ediv _ (by omega),
      h3, Int.add_mul_ediv_right _ _ hc]
    ring

/-- A positive value floor-divided by a negative divisor is negative. -/
theorem fdiv_neg_of_pos_of_neg {x c : Int} (hx : 0 < x) (hc : c < 0) :
    x.fdiv c < 0 := by
  rw [← fdiv_neg_neg]
  exact Int.fdiv_neg' (by omega) (by omega)

/-- A nonpositive value floor-divided by a negative divisor is nonnegative. -/
theorem fdiv_nonneg_of_nonpos_of_neg {x c : Int} (hx : x ≤ 0) (hc : c < 0) :
    0 ≤ x.fdiv c := by
  rw [← fdiv_neg_neg]
  exact Int.fdiv_nonneg (by omega) (by omega)

/-! ## Loop-bound normalization: the integer-literal trip count and remap

From `normalize_bounds` in `analyse_dependency_detection.py`. -/

/-- From `normalize_bounds`: `upper_bound = (b.value - a.value) // c.value + 1`,
the trip count `N` for integer-literal loop bounds `(a, b, c)`. -/
def normalized_upper_bound (a b c : Int) : Int := (b - a).fdiv c + 1

/-- From `normalize_bounds`: the variable remap `(i_new - 1) * c + a`
evaluated at `i_new = k`. -/
def index_remap (a c k : Int) : Int := (k - 1) * c + a

/-- The indices visited by the normalized loop `do i_new = 1, N, 1`,
each mapped back through `index_remap`. -/
def remapped_index_list (a b c : Int) : List Int :=
  (List.range (normalized_upper_bound a b c).toNat).map
    fun (k : Nat) => index_remap a c ((k : Int) + 1)

/-- Modelled from the spec: the iteration sequence of the counted loop
`do i = a, b, c` — starting at `a`, advancing by `c`, containing every
value that does not pass `b` in the direction of travel (values `≤ b` for
positive step, values `≥ b` for negative step), in visit order.  A zero
step yields no iterations (the normalization contract assumes `c ≠ 0`). -/
def loop_iteration_sequence (a b c : Int) : List Int :=
  if 0 < c then
    (if a ≤ b then a :: loop_iteration_sequence (a + c) b c else [])
  else if c < 0 then
    (if b ≤ a then a :: loop_iteration_sequence (a + c) b c else [])
  else []
termination_by ((if 0 < c then b + 1 - a else a + 1 - b)).toNat
decreasing_by
  all_goals (split <;> omega)

theorem remapped_index_list_nil {a b c : Int}
    (h : normalized_upper_bound a b c ≤ 0) : remapped_index_list a b c = [] := by
  unfold remapped_index_list
  have h0 : (normalized_upper_bound a b c).toNat = 0 := by omega
  rw [h0]
  rfl

theorem remapped_index_list_cons {a b c : Int}
    (h : 0 < normalized_upper_bound a b c) (hc : c ≠ 0) :
    remapped_index_list a b c = a :: remapped_index_list (a + c) b c := by
  have hub : normalized_upper_bound a b c = normalized_upper_bound (a + c) b c + 1 := by
    unfold normalized_upper_bound
    have hba : b - (a + c) = (b - a) - c := by ring
    rw [hba, fdiv_sub_right _ hc]
    ring
  unfold remapped_index_list
  rw [hub]
  have h2 : (normalized_upper_bound (a + c) b c + 1).toNat
      = (normalized_upper_bound (a + c) b c).toNat + 1 := by omega
  rw [h2, List.range_succ_eq_map, List.map_cons, List.map_map]
  congr 1
  · unfold index_remap
    push_cast
    ring
  · apply List.map_congr_left
    intro k _
    unfold index_remap
    simp only [Function.comp_apply]
    push_cast
    ring

theorem lis_eq_remap_pos {c : Int} (hc : 0 < c) :
    ∀ (n : Nat) (a b : Int), (b + 1 - a).toNat ≤ n →
      loop_iteration_sequence a b c = remapped_index_list a b c := by
  intro n
  induction n with
  | zero =>
      intro a b hn
      rw [loop_iteration_sequence, if_pos hc, if_neg (by omega : ¬ a ≤ b)]
      refine (remapped_index_list_nil ?_).symm
      have hneg := Int.fdiv_neg' (a := b - a) (b := c) (by omega) hc
      unfold normalized_upper_bound
      omega
  | succ n ih =>
      intro a b hn
      rcases le_or_lt a b with hab | hba
      · rw [loop_iteration_sequence, if_pos hc, if_pos hab, ih (a + c) b (by omega)]
        refine (remapped_index_list_cons ?_ (by omega)).symm
        have hnn := Int.fdiv_nonneg (a := b - a) (b := c) (by omega) (by omega)
        unfold normalized_upper_bound
        omega
      · rw [loop_iteration_sequence, if_pos hc, if_neg (by omega : ¬ a ≤ b)]
        refine (remapped_index_list_nil ?_).symm
        have hneg := Int.fdiv_neg' (a := b - a) (b := c) (by omega) hc
        unfold normalized_upper_bound
        omega

theorem lis_eq_remap_neg {c : Int} (hc : c < 0) :
    ∀ (n : Nat) (a b : Int), (a + 1 - b).toNat ≤ n →
      loop_iteration_sequence a b c = remapped_index_list a b c := by
  intro n
  induction n with
  | zero =>
      intro a b hn
      rw [loop_iteration_sequence, if_neg (by omega : ¬ 0 < c), if_pos hc,
        if_neg (by omega : ¬ b ≤ a)]
      refine (remapped_index_list_nil ?_).symm
      have hneg := fdiv_neg_of_pos_of_neg (x := b - a) (by omega) hc
      unfold normalized_upper_bound
      omega
  | succ n ih =>
      intro a b hn
      rcases le_or_lt b a with hba | hab
      · rw [loop_iteration_sequence, if_neg (by omega : ¬ 0 < c), if_pos hc,
          if_pos hba, ih (a + c) b (by omega)]
        refine (remapped_index_list_cons ?_ (by omega)).symm
        have hnn := fdiv_nonneg_of_nonpos_of_neg (x := b - a) (by omega) hc
        unfold normalized_upper_bound
        omega
      · rw [loop_iteration_sequence, if_neg (by omega : ¬ 0 < c), if_pos hc,
          if_neg (by omega : ¬ b ≤ a)]
        refine (remapped_index_list_nil ?_).symm
        have hneg := fdiv_neg_of_pos_of_neg (x := b - a) (by omega) hc
        unfold normalized_upper_bound
        omega

/-- The remapped index list of the normalized loop reproduces the original
iteration sequence, for every nonzero step. -/
theorem remapped_index_list_eq_iteration_sequence {a b c : Int} (hc : c ≠ 0) :
    remapped_index_list a b c = loop_iteration_sequence a b c := by
  rcases lt_or_gt_of_ne hc with hneg | hpos
  · exact (lis_eq_remap_neg hneg ((a + 1 - b).toNat) a b le_rfl).symm
  · exact (lis_eq_remap_pos hpos ((b + 1 - a).toNat) a b le_rfl).symm

/-! ## Interval arithmetic (`loki/expression/interval_arithmetics.py`)

Operands are either a `RangeIndex` (a closed interval given by its `start`
and `stop` bounds; the step is disregarded by every operation, as the
module's warning states) or a plain scalar. -/

structure RangeIndex where
  start : Int
  stop : Int
deriving DecidableEq, Repr

/-- An argument of `binary_operation`: a `RangeIndex` or a plain scalar. -/
inductive IntervalOperand
  | range (r : RangeIndex)
  | scalar (x : Int)
deriving DecidableEq, Repr

def IntervalOperand.isRange : IntervalOperand → Bool
  | .range _ => true
  | .scalar _ => false

/-- `x0` is a value described by the operand: inside the interval, or equal
to the scalar. -/
def IntervalOperand.contains (x : IntervalOperand) (x0 : Int) : Prop :=
  match x with
  | .range r => r.start ≤ x0 ∧ x0 ≤ r.stop
  | .scalar a => x0 = a

/-- From `_binary_operation_on_range_index`: `op` sampled at the four corner
combinations of the bounds, re-sorted by `min`/`max`. -/
def binary_operation_on_range_index (op : Int → Int → Int) (x y : RangeIndex) :
    RangeIndex :=
  ⟨min (min (op x.start y.start) (op x.start y.stop))
      (min (op x.stop y.start) (op x.stop y.stop)),
    max (max (op x.start y.start) (op x.start y.stop))
      (max (op x.stop y.start) (op x.stop y.stop))⟩

/-- From `_binary_operation_on_range_index_and_scalar`. -/
def binary_operation_on_range_index_and_scalar (op : Int → Int → Int)
    (x : RangeIndex) (y : Int) : RangeIndex :=
  ⟨min (op x.start y) (op x.stop y), max (op x.start y) (op x.stop y)⟩

/-- From `_binary_operation_on_scalar_and_range_index`. -/
def binary_operation_on_scalar_and_range_index (op : Int → Int → Int)
    (x : Int) (y : RangeIndex) : RangeIndex :=
  ⟨min (op x y.start) (op x y.stop), max (op x y.start) (op x y.stop)⟩

/-- From `binary_operation`: dispatch on the operand classes.  Two scalar
operands fall through to the scalar/range case of the source, which fails
reading `y.start` (an `AttributeError`), modelled as `none`. -/
def binary_operation (op : Int → Int → Int) :
    IntervalOperand → IntervalOperand → Option RangeIndex
  | .range x, .range y => some (binary_operation_on_range_index op x y)
  | .scalar x, .range y => some (binary_operation_on_scalar_and_range_index op x y)
  | .range x, .scalar y => some (binary_operation_on_range_index_and_scalar op x y)
  | .scalar _, .scalar _ => none

/-- From `unary_operation`: `op` applied to both bounds, not re-sorted. -/
def unary_operation (op : Int → Int) (x : RangeIndex) : RangeIndex :=
  ⟨op x.start, op x.stop⟩

/-- `op` is monotone (non-decreasing or non-increasing) in each argument
separately: every slice fixing one argument is monotone or antitone. -/
def MonotoneInEachArgument (op : Int → Int → Int) : Prop :=
  (∀ y, Monotone (fun x => op x y) ∨ Antitone (fun x => op x y)) ∧
  (∀ x, Monotone (op x) ∨ Antitone (op x))

/-- `f` is monotone or antitone between the bounds `lo` and `hi`. -/
def MonotoneSliceOn (f : Int → Int) (lo hi : Int) : Prop :=
  (∀ a b : Int, lo ≤ a → a ≤ b → b ≤ hi → f a ≤ f b) ∨
  (∀ a b : Int, lo ≤ a → a ≤ b → b ≤ hi → f b ≤ f a)

/-- The interval of values described by an operand: the range itself, or
the degenerate interval holding just the scalar. -/
def IntervalOperand.toRange : IntervalOperand → RangeIndex
  | .range r => r
  | .scalar a => ⟨a, a⟩

/-- `op` is monotone (non-decreasing or non-increasing) in each argument
separately on the rectangle `xr × yr`: every slice fixing one argument
inside its interval is monotone or antitone on the other interval. -/
def MonotoneInEachArgumentOn (op : Int → Int → Int) (xr yr : RangeIndex) : Prop :=
  (∀ y0 : Int, yr.start ≤ y0 → y0 ≤ yr.stop →
    MonotoneSliceOn (fun x => op x y0) xr.start xr.stop) ∧
  (∀ x0 : Int, xr.start ≤ x0 → x0 ≤ xr.stop →
    MonotoneSliceOn (op x0) yr.start yr.stop)

theorem slice_bounds_on {f : Int → Int} {lo hi : Int}
    (hf : MonotoneSliceOn f lo hi) {v : Int} (h1 : lo ≤ v) (h2 : v ≤ hi) :
    min (f lo) (f hi) ≤ f v ∧ f v ≤ max (f lo) (f hi) := by
  rcases hf with hf | hf
  · exact ⟨le_trans (min_le_left _ _) (hf lo v le_rfl h1 h2),
      le_trans (hf v hi h1 h2 le_rfl) (le_max_right _ _)⟩
  · exact ⟨le_trans (min_le_right _ _) (hf v hi h1 h2 le_rfl),
      le_trans (hf lo v le_rfl h1 h2) (le_max_left _ _)⟩

theorem interval_sound_range_range {op : Int → Int → Int}
    {x y : RangeIndex} (hop : MonotoneInEachArgumentOn op x y) {x0 y0 : Int}
    (hx1 : x.start ≤ x0) (hx2 : x0 ≤ x.stop) (hy1 : y.start ≤ y0) (hy2 : y0 ≤ y.stop) :
    (binary_operation_on_range_index op x y).start ≤ op x0 y0 ∧
      op x0 y0 ≤ (binary_operation_on_range_index op x y).stop := by
  obtain ⟨hx, hy⟩ := hop
  have hxa := slice_bounds_on (hy x.start le_rfl (le_trans hx1 hx2)) hy1 hy2
  have hxb := slice_bounds_on (hy x.stop (le_trans hx1 hx2) le_rfl) hy1 hy2
  have hv := slice_bounds_on (hx y0 hy1 hy2) hx1 hx2
  unfold binary_operation_on_range_index
  constructor
  · calc min (min (op x.start y.start) (op x.start y.stop))
          (min (op x.stop y.start) (op x.stop y.stop))
        ≤ min (op x.start y0) (op x.stop y0) :=
          min_le_min hxa.1 hxb.1
      _ ≤ op x0 y0 := hv.1
  · calc op x0 y0
        ≤ max (op x.start y0) (op x.stop y0) := hv.2
      _ ≤ max (max (op x.start y.start) (op x.start y.stop))
          (max (op x.stop y.start) (op x.stop y.stop)) :=
          max_le_max hxa.2 hxb.2

theorem interval_sound_operands {op : Int → Int → Int}
    {x y : IntervalOperand} (hop : MonotoneInEachArgumentOn op x.toRange y.toRange)
    {x0 y0 : Int} (hx : x.contains x0) (hy : y.contains y0)
    (hr : x.isRange = true ∨ y.isRange = true) :
    ∃ r, binary_operation op x y = some r ∧
      r.start ≤ op x0 y0 ∧ op x0 y0 ≤ r.stop := by
  cases x with
  | range xr =>
      cases y with
      | range yr =>
          exact ⟨_, rfl, interval_sound_range_range hop hx.1 hx.2 hy.1 hy.2⟩
      | scalar b =>
          refine ⟨_, rfl, ?_⟩
          obtain rfl : y0 = b := hy
          obtain ⟨hx1, hx2⟩ := hx
          exact slice_bounds_on (hop.1 y0 le_rfl le_rfl) hx1 hx2
  | scalar a =>
      cases y with
      | range yr =>
          refine ⟨_, rfl, ?_⟩
          obtain rfl : x0 = a := hx
          obtain ⟨hy1, hy2⟩ := hy
          exact slice_bounds_on (hop.2 x0 le_rfl le_rfl) hy1 hy2
      | scalar b =>
          simp [IntervalOperand.isRange] at hr

theorem monotone_add : MonotoneInEachArgument (· + ·) :=
  ⟨fun y => Or.inl fun a b hab => by simpa using add_le_add_right hab y,
    fun x => Or.inl fun a b hab => by simpa using add_le_add_left hab x⟩

theorem monotone_sub : MonotoneInEachArgument (· - ·) :=
  ⟨fun y => Or.inl fun a b hab => by simpa using sub_le_sub_right hab y,
    fun x => Or.inr fun a b hab => by simpa using sub_le_sub_left hab x⟩

theorem monotone_mul : MonotoneInEachArgument (· * ·) := by
  constructor
  · intro y
    rcases le_total 0 y with hy | hy
    · exact Or.inl fun a b hab => by simpa using mul_le_mul_of_nonneg_right hab hy
    · exact Or.inr fun a b hab => by simpa using mul_le_mul_of_nonpos_right hab hy
  · intro x
    rcases le_total 0 x with hx | hx
    · exact Or.inl fun a b hab => by simpa using mul_le_mul_of_nonneg_left hab hx
    · exact Or.inr fun a b hab => by simpa using mul_le_mul_of_nonpos_left hab hx

theorem monotone_on_of_global {op : Int → Int → Int}
    (hop : MonotoneInEachArgument op) (xr yr : RangeIndex) :
    MonotoneInEachArgumentOn op xr yr :=
  ⟨fun y0 _ _ =>
      (hop.1 y0).imp (fun h _ _ _ hab _ => h hab) (fun h _ _ _ hab _ => h hab),
    fun x0 _ _ =>
      (hop.2 x0).imp (fun h _ _ _ hab _ => h hab) (fun h _ _ _ hab _ => h hab)⟩

theorem fdiv_le_fdiv_of_le {a b c : Int} (hc : 0 < c) (h : a ≤ b) :
    a.fdiv c ≤ b.fdiv c := by
  rw [Int.fdiv_eq_ediv _ hc.le, Int.fdiv_eq_ediv _ hc.le]
  exact Int.ediv_le_ediv hc h

theorem fdiv_le_fdiv_of_le_neg {a b c : Int} (hc : c < 0) (h : a ≤ b) :
    b.fdiv c ≤ a.fdiv c := by
  rw [← fdiv_neg_neg b c, ← fdiv_neg_neg a c]
  exact fdiv_le_fdiv_of_le (by omega) (by omega)

theorem fdiv_right_antitone_of_nonneg {x c d : Int} (hx : 0 ≤ x) (hc : 0 < c)
    (hcd : c ≤ d) : x.fdiv d ≤ x.fdiv c := by
  have hd : 0 < d := lt_of_lt_of_le hc hcd
  rw [Int.fdiv_eq_ediv _ hc.le, Int.fdiv_eq_ediv _ hd.le]
  rw [Int.le_ediv_iff_mul_le hc]
  calc x / d * c ≤ x / d * d :=
        mul_le_mul_of_nonneg_left hcd (Int.ediv_nonneg hx hd.le)
    _ ≤ x := Int.ediv_mul_le x (by omega)

theorem fdiv_right_monotone_of_nonpos {x c d : Int} (hx : x ≤ 0) (hc : 0 < c)
    (hcd : c ≤ d) : x.fdiv c ≤ x.fdiv d := by
  have hd : 0 < d := lt_of_lt_of_le hc hcd
  rw [Int.fdiv_eq_ediv _ hc.le, Int.fdiv_eq_ediv _ hd.le]
  rw [Int.le_ediv_iff_mul_le hd]
  have hq : x / c ≤ 0 := by
    calc x / c ≤ 0 / c := Int.ediv_le_ediv hc hx
      _ = 0 := Int.zero_ediv c
  calc x / c * d ≤ x / c * c := mul_le_mul_of_nonpos_left hcd hq
    _ ≤ x := Int.ediv_mul_le x (by omega)

/-- Floor division is monotone or antitone in each argument on any rectangle
whose divisor interval is sign-consistent (entirely positive or entirely
negative): the dividend slice is monotone for positive divisors and antitone
for negative ones, and the divisor slice at a fixed dividend is monotone or
antitone depending on the dividend's sign. -/
theorem monotone_fdiv_on_sign_consistent (xr yr : RangeIndex)
    (hy : 0 < yr.start ∨ yr.stop < 0) :
    MonotoneInEachArgumentOn (fun a b => Int.fdiv a b) xr yr := by
  constructor
  · intro y0 hy1 hy2
    unfold MonotoneSliceOn
    rcases hy with hpos | hneg
    · exact Or.inl fun a b _ hab _ => fdiv_le_fdiv_of_le (by omega) hab
    · exact Or.inr fun a b _ hab _ => fdiv_le_fdiv_of_le_neg (by omega) hab
  · intro x0 _ _
    unfold MonotoneSliceOn
    rcases hy with hpos | hneg
    · rcases le_or_lt 0 x0 with hx | hx
      · exact Or.inr fun a b ha hab _ =>
          fdiv_right_antitone_of_nonneg hx (by omega) hab
      · exact Or.inl fun a b ha hab _ =>
          fdiv_right_monotone_of_nonpos (by omega) (by omega) hab
    · rcases le_or_lt 0 x0 with hx | hx
      · refine Or.inr fun a b ha hab hb => ?_
        show x0.fdiv b ≤ x0.fdiv a
        rw [← fdiv_neg_neg x0 b, ← fdiv_neg_neg x0 a]
        exact fdiv_right_monotone_of_nonpos (by omega) (by omega) (by omega)
      · refine Or.inl fun a b ha hab hb => ?_
        show x0.fdiv a ≤ x0.fdiv b
        rw [← fdiv_neg_neg x0 a, ← fdiv_neg_neg x0 b]
        exact fdiv_right_antitone_of_nonneg (by omega) (by omega) (by omega)

/-! ## Integer linear algebra (`loki/analyse/util_linear_algebra.py`)

Matrices are numpy 2-D integer arrays, modelled as rectangular
`List (List Int)` row lists.  The elimination routines mutate their
argument in place (row swap, pivot scaling, elimination all act on the
array or on views of it), so the recursion below threads the array
content explicitly: each call returns the final content of the array
region it was given alongside the returned (freshly assembled) result. -/

/-- numpy's integer remainder: the sign follows the divisor (`Int.fmod`),
and a zero divisor yields `0` with a `RuntimeWarning` instead of the
`ZeroDivisionError` a plain Python `int` would raise. -/
def np_remainder (x g : Int) : Int :=
  if g = 0 then 0 else Int.fmod x g

/-- `math.gcd(*args)`: the nonnegative greatest common divisor of the
absolute values, `0` for an empty argument list. -/
def gcd_of_list (l : List Int) : Int :=
  Int.ofNat (l.foldl (fun g x => Nat.gcd g x.natAbs) 0)

/-- The error raised by `row_echelon_form_under_gcd_condition` when a row
has no integer solution. -/
inductive NoIntegerSolution
  | noIntegerSolution
deriving DecidableEq, Repr

/-- From the inner `gcd_condition` of `row_echelon_form_under_gcd_condition`:
raise `NoIntegerSolution` unless the augmented entry `A[0, -1]` is divisible
by `gcd(*A[0, :-1])`. -/
def gcd_condition (A : List (List Int)) : Except NoIntegerSolution Unit :=
  let row := A.headD []
  if np_remainder (row.getLastD 0) (gcd_of_list row.dropLast) ≠ 0 then
    .error .noIntegerSolution
  else
    .ok ()

/-- The pivot-search predicate of `generate_reduced_row_echelon_form`:
`A[i, 0] != 0` for a row. -/
def leading_nonzero (row : List Int) : Bool :=
  row.headD 0 != 0

/-- `A[[i, 0]] = A[[0, i]]`: swap rows `0` and `i`. -/
def swap_rows_with_first (A : List (List Int)) (i : Nat) : List (List Int) :=
  (A.set 0 (A.getD i [])).set i (A.getD 0 [])

/-- The pivot step of `generate_reduced_row_echelon_form`:
`A[0] = division_operator(A[0], A[0, 0])` followed by
`A[1:] -= A[0] * A[1:, 0:1]`.  Returns the new first row and the
eliminated remaining rows. -/
def pivot_and_eliminate (division_operator : Int → Int → Int)
    (A1 : List (List Int)) : List Int × List (List Int) :=
  let pivot := (A1.headD []).headD 0
  let row0 := (A1.headD []).map fun x => division_operator x pivot
  (row0, A1.tail.map fun row =>
    row.zipWith (fun x y => x - row.headD 0 * y) row0)

/-- From `generate_reduced_row_echelon_form`, with the source's recursive
calls going through `row_echelon_form_under_gcd_condition` (they therefore
always use the GCD check and integer floor division, independently of the
`conditional_check` and `division_operator` passed at the top level).
`cols` is `A.shape[1]` (constant across the rows of a rectangular array).

The returned pair is `(final content of the argument array, result)`:
the source mutates `A` in place (row swap, `A[0] = A[0] // A[0, 0]`,
`A[1:] -= A[0] * A[1:, 0:1]`), and its recursive calls receive numpy
*views* (`A[:, 1:]`, `A[1:, 1:]`) whose mutations also land in the
caller's array. -/
def generate_reduced_row_echelon_form
    (conditional_check : List (List Int) → Except NoIntegerSolution Unit)
    (division_operator : Int → Int → Int) :
    (cols : Nat) → (A : List (List Int)) →
      List (List Int) × Except NoIntegerSolution (List (List Int))
  | 0, A => (A, .ok A)
  | cols + 1, A =>
    if A.length = 0 then (A, .ok A)
    else
      match A.findIdx? leading_nonzero with
      | none =>
          -- all elements of the first column are zero: recurse on `A[:, 1:]`
          -- and re-attach the first (zero) column
          let (S, B) := generate_reduced_row_echelon_form gcd_condition
            (fun x y => Int.fdiv x y) cols (A.map (·.tail))
          ((A.zip S).map fun p => p.1.headD 0 :: p.2,
            B.map fun Bv => (A.zip Bv).map fun p => p.1.headD 0 :: p.2)
      | some i =>
          let A1 := if i > 0 then swap_rows_with_first A i else A
          match conditional_check A1 with
          | .error e => (A1, .error e)
          | .ok () =>
              let (row0, rest) := pivot_and_eliminate division_operator A1
              let (S, B) := generate_reduced_row_echelon_form gcd_condition
                (fun x y => Int.fdiv x y) cols (rest.map (·.tail))
              (row0 :: ((rest.zip S).map fun p => p.1.headD 0 :: p.2),
                B.map fun Bv =>
                  row0 :: ((rest.zip Bv).map fun p => p.1.headD 0 :: p.2))

/-- From `row_echelon_form_under_gcd_condition`: the result value of the
elimination under the GCD condition, with integer floor division. -/
def row_echelon_form_under_gcd_condition (A : List (List Int)) :
    Except NoIntegerSolution (List (List Int)) :=
  (generate_reduced_row_echelon_form gcd_condition (fun x y => Int.fdiv x y)
    (A.headD []).length A).2

/-- The content of the caller's array after
`row_echelon_form_under_gcd_condition` returns (or raises): the in-place
mutations the elimination performed on the argument. -/
def row_echelon_argument_after_call (A : List (List Int)) : List (List Int) :=
  (generate_reduced_row_echelon_form gcd_condition (fun x y => Int.fdiv x y)
    (A.headD []).length A).1

/-- From `is_independent_system`: every row has exactly one nonzero entry. -/
def is_independent_system (matrix : List (List Int)) : Bool :=
  matrix.all fun row => (row.filter (· ≠ 0)).length = 1

/-- numpy's `.T` on a rectangular 2-D array (row width read off the first
row, as numpy's shape does). -/
def np_transpose (m : List (List Int)) : List (List Int) :=
  (List.range (m.headD []).length).map fun j => m.map fun row => row.getD j 0

/-- A yielded array of `yield_one_d_systems`: numpy arrays of different
rank flow out of the two branches (1-D `A.T`/`b.T` without
`drop_zero_rows`, 2-D boolean-mask results with it). -/
inductive NpValue
  | one (l : List Int)
  | two (m : List (List Int))
deriving DecidableEq, Repr

/-- From `yield_one_d_systems`: `zip(matrix.T, right_hand_side.T)` pairs the
rows of the transposes (Python's `zip` stops at the shorter operand).  With
`drop_zero_rows`, the mask `~np.all(hstack((A, b)) == 0)` is a *scalar*
boolean (no `axis` argument), so `A[mask]` is either everything — reshaped
by the advanced indexing to one row, hence `(n, 1)` after `.T` — or empty. -/
def yield_one_d_systems (matrix right_hand_side : List (List Int))
    (drop_zero_rows : Bool) : List (NpValue × NpValue) :=
  ((np_transpose matrix).zip (np_transpose right_hand_side)).map fun p =>
    if drop_zero_rows then
      if (p.1 ++ p.2).all (· == 0) then
        (.two (List.replicate p.1.length []), .two (List.replicate p.2.length []))
      else
        (.two (p.1.map fun x => [x]), .two (p.2.map fun x => [x]))
    else
      (.one p.1, .one p.2)

/-- On success, the freshly assembled result of the elimination coincides,
entry for entry, with the final (mutated) content of the argument array. -/
theorem generate_rref_argument_eq_result :
    ∀ (cols : Nat) (check : List (List Int) → Except NoIntegerSolution Unit)
      (div : Int → Int → Int) (A Bv : List (List Int)),
      (generate_reduced_row_echelon_form check div cols A).2 = .ok Bv →
      (generate_reduced_row_echelon_form check div cols A).1 = Bv := by
  intro cols
  induction cols with
  | zero =>
      intro check div A Bv h
      simp only [generate_reduced_row_echelon_form] at h ⊢
      exact Except.ok.inj h
  | succ n ih =>
      intro check div A Bv h
      rw [generate_reduced_row_echelon_form] at h ⊢
      by_cases hA : A.length = 0
      · rw [if_pos hA] at h ⊢
        exact Except.ok.inj h
      · rw [if_neg hA] at h ⊢
        cases hf : A.findIdx? leading_nonzero with
        | none =>
            rw [hf] at h
            dsimp only at h ⊢
            cases hB : (generate_reduced_row_echelon_form gcd_condition
                (fun x y => Int.fdiv x y) n (A.map fun x => x.tail)).2 with
            | error e => rw [hB] at h; simp [Except.map] at h
            | ok Bv1 =>
                rw [hB] at h
                simp only [Except.map, Except.ok.injEq] at h
                rw [ih gcd_condition (fun x y => Int.fdiv x y)
                  (A.map fun x => x.tail) Bv1 hB]
                exact h
        | some i =>
            rw [hf] at h
            dsimp only at h ⊢
            revert h
            cases hc : check (if i > 0 then swap_rows_with_first A i else A) with
            | error e => intro h; exact absurd h (by simp)
            | ok u =>
                cases u
                intro h
                dsimp only at h ⊢
                rcases hpm : pivot_and_eliminate div
                    (if i > 0 then swap_rows_with_first A i else A) with ⟨row0, rest⟩
                rw [hpm] at h
                dsimp only at h ⊢
                cases hB : (generate_reduced_row_echelon_form gcd_condition
                    (fun x y => Int.fdiv x y) n (rest.map fun x => x.tail)).2 with
                | error e => rw [hB] at h; simp [Except.map] at h
                | ok Bv1 =>
                    rw [hB] at h
                    simp only [Except.map, Except.ok.injEq] at h
                    rw [ih gcd_condition (fun x y => Int.fdiv x y)
                      (rest.map fun x => x.tail) Bv1 hB]
                    exact h

/-- When the first row with a nonzero leading coefficient (the pivot row)
has an augmented entry that the GCD of its coefficients does not divide,
the elimination raises `NoIntegerSolution` immediately. -/
theorem rref_error_of_first_pivot_gcd_violation (row : List Int)
    (rows : List (List Int)) (hhead : leading_nonzero row = true)
    (hgcd : np_remainder (row.getLastD 0) (gcd_of_list row.dropLast) ≠ 0) :
    row_echelon_form_under_gcd_condition (row :: rows) =
      .error .noIntegerSolution := by
  unfold row_echelon_form_under_gcd_condition
  obtain ⟨k, hk⟩ : ∃ k, row.length = k + 1 := by
    cases row with
    | nil => simp [leading_nonzero] at hhead
    | cons x xs => exact ⟨xs.length, rfl⟩
  simp only [List.headD_cons]
  rw [hk, generate_reduced_row_echelon_form,
    if_neg (by simp : ¬ (row :: rows).length = 0)]
  rw [List.findIdx?_cons, if_pos hhead]
  dsimp only
  rw [if_neg (by omega : ¬ 0 > 0)]
  have hcheck : gcd_condition (row :: rows) = .error .noIntegerSolution := by
    unfold gcd_condition
    simp only [List.headD_cons]
    rw [if_pos hgcd]
  rw [hcheck]

/-- With an `n × 1` right-hand-side column (and a matrix of positive
width), `yield_one_d_systems` yields exactly one pair — `zip` truncates at
the single row of `right_hand_side.T` — pairing the *first* matrix column
with the whole right-hand side; `drop_zero_rows` either keeps every row or
(only when coefficient column and right-hand side are entirely zero)
empties the pair. -/
theorem yield_one_d_systems_single_pair (M R : List (List Int)) (drop : Bool)
    (hM : 0 < (M.headD []).length) (hR : (R.headD []).length = 1) :
    yield_one_d_systems M R drop =
      [if drop then
        (if ((M.map fun row => row.getD 0 0) ++ (R.map fun row => row.getD 0 0)).all
            (· == 0) then
          (.two (List.replicate M.length []), .two (List.replicate R.length []))
        else
          (.two ((M.map fun row => row.getD 0 0).map fun x => [x]),
            .two ((R.map fun row => row.getD 0 0).map fun x => [x])))
      else
        (.one (M.map fun row => row.getD 0 0), .one (R.map fun row => row.getD 0 0))] := by
  unfold yield_one_d_systems np_transpose
  rw [hR, show List.range 1 = [0] from rfl]
  obtain ⟨k, hk⟩ : ∃ k, (M.headD []).length = k + 1 :=
    ⟨(M.headD []).length - 1, by omega⟩
  rw [hk, List.range_succ_eq_map]
  simp only [List.map_cons, List.map_nil, List.zip_cons_cons, List.zip_nil_right,
    List.length_map]

/-! ## Symbolic expressions

The expression node kinds the analysis core manipulates: integer
literals, symbols (`TypedSymbol`/`MetaSymbol`, modelled by their name),
sums, products, and the quotient node produced by the symbolic
trip-count path.  Subtraction in the source (`loop_variable - 1`,
`b - a`) is pymbolic sugar for adding a product with `-1` and is
embedded accordingly. -/

inductive Expr
  | intLit (n : Int)
  | var (name : String)
  | add (a b : Expr)
  | mul (a b : Expr)
  | quotient (num den : Expr)
deriving DecidableEq, Repr

/-- Evaluation of an expression under an environment; the quotient node is
read as integer floor division. -/
def evalExpr (ρ : String → Int) : Expr → Int
  | .intLit n => n
  | .var s => ρ s
  | .add a b => evalExpr ρ a + evalExpr ρ b
  | .mul a b => evalExpr ρ a * evalExpr ρ b
  | .quotient a b => (evalExpr ρ a).fdiv (evalExpr ρ b)

/-- The error outcomes of the affine access-function builder:
the `ValueError("Non-affine bound …")` of `generate_row`, the
`ValueError("Cannot derive inequality …")` for unsupported expression
kinds, and a failed `assert`. -/
inductive ExprError
  | nonAffine
  | unsupported
  | assertionFailed
deriving DecidableEq, Repr

instance {ε α : Type _} [DecidableEq ε] [DecidableEq α] :
    DecidableEq (Except ε α) := fun a b =>
  match a, b with
  | .error e, .error f =>
      match decEq e f with
      | isTrue h => isTrue (h ▸ rfl)
      | isFalse h => isFalse fun hh => h (Except.error.inj hh)
  | .ok x, .ok y =>
      match decEq x y with
      | isTrue h => isTrue (h ▸ rfl)
      | isFalse h => isFalse fun hh => h (Except.ok.inj hh)
  | .error _, .ok _ => isFalse fun hh => Except.noConfusion hh
  | .ok _, .error _ => isFalse fun hh => Except.noConfusion hh

/-- Python's `str.lower()` (i.e. `String.toLower`), written over the
character list so that it evaluates inside the kernel. -/
def pyLower (s : String) : String :=
  ⟨s.data.map Char.toLower⟩

/-- Lexicographic comparison of names by character code, used only to keep
monomial keys canonical. -/
def nameLt : List Char → List Char → Bool
  | [], [] => false
  | [], _ :: _ => true
  | _ :: _, [] => false
  | c :: cs, d :: ds =>
      if c.toNat < d.toNat then true
      else if d.toNat < c.toNat then false
      else nameLt cs ds

/-- Insert a factor into a sorted monomial (list of variable names with
multiplicity). -/
def monomialInsert (s : String) : List String → List String
  | [] => [s]
  | t :: ts => if nameLt t.data s.data then t :: monomialInsert s ts else s :: t :: ts

/-- Multiply monomials: merge their factor lists. -/
def monomialMul (a b : List String) : List String :=
  a.foldr monomialInsert b

/-- Add a single term into a polynomial term map (association list from
monomial to coefficient; the constant term is keyed by `[]`). -/
def addTerm (key : List String) (c : Int) :
    List (List String × Int) → List (List String × Int)
  | [] => [(key, c)]
  | (k, x) :: rest =>
      if k = key then (k, x + c) :: rest else (k, x) :: addTerm key c rest

def polyAdd (p q : List (List String × Int)) : List (List String × Int) :=
  q.foldl (fun acc t => addTerm t.1 t.2 acc) p

def polyMul (p q : List (List String × Int)) : List (List String × Int) :=
  p.foldl (fun acc t =>
    q.foldl (fun acc2 t2 => addTerm (monomialMul t.1 t2.1) (t.2 * t2.2) acc2) acc) []

/-- Modelled from the spec (§4.1): `accumulate_polynomial_terms` applied to
the `simplify`-normalized expression — the decomposition of an expression
into its monomial/coefficient term map, with integer constants folded and
like terms collected.  Expression kinds outside {constant, symbol, sum,
product} are not supported. -/
def accumulate_polynomial_terms :
    Expr → Except ExprError (List (List String × Int))
  | .intLit n => .ok [([], n)]
  | .var s => .ok [([s], 1)]
  | .add a b => do
      let pa ← accumulate_polynomial_terms a
      let pb ← accumulate_polynomial_terms b
      .ok (polyAdd pa pb)
  | .mul a b => do
      let pa ← accumulate_polynomial_terms a
      let pb ← accumulate_polynomial_terms b
      .ok (polyMul pa pb)
  | .quotient _ _ => .error .unsupported

/-- One term of the canonical simplified form: coefficient times the
monomial's factors. -/
def termToExpr (t : List String × Int) : Expr :=
  match t.1 with
  | [] => .intLit t.2
  | v :: vs => .mul (.intLit t.2) (vs.foldl (fun e s => .mul e (.var s)) (.var v))

def polyToExpr : List (List String × Int) → Expr
  | [] => .intLit 0
  | [t] => termToExpr t
  | t :: rest => .add (termToExpr t) (polyToExpr rest)

/-- Modelled from the spec (§4.1): the `_simplify` helper of
`analyse_dependency_detection.py` — `simplify` with the
`IntegerArithmetic` and `CollectCoefficients` simplifications enabled,
i.e. constant folding and collection of like terms.  Rendered as the
canonical expression of the polynomial term map; expressions the
normalizer does not support are returned unchanged. -/
def simplify_ia_cc (e : Expr) : Expr :=
  match accumulate_polynomial_terms e with
  | .ok p => polyToExpr p
  | .error _ => e

/-- From `construct_affine_array_access_function_representation`:
`is_constant(expr) or isinstance(expr, (TypedSymbol, MetaSymbol, Sum,
Product))`. -/
def is_supported_expr : Expr → Bool
  | .intLit _ => true
  | .var _ => true
  | .add _ _ => true
  | .mul _ _ => true
  | .quotient _ _ => false

/-- From the inner `generate_row`: decompose one dimension expression into
a coefficient row over `variables` plus the constant offset.  Terms whose
monomial does not consist of exactly one variable raise the non-affine
error. -/
def generate_row (expr : Expr) (vars : List String) :
    Except ExprError (List Int × Int) :=
  if ¬ is_supported_expr expr then .error .unsupported
  else do
    let terms ← accumulate_polynomial_terms expr
    let constTerm := ((terms.filter fun t => t.1 = []).map (·.2)).headD 0
    let nonconst := terms.filter fun t => ¬ t.1 = []
    let row ← nonconst.foldlM
      (fun (row : List Int) t =>
        match t.1 with
        | [v] => .ok (row.set (vars.indexOf (pyLower v)) t.2)
        | _ => .error .nonAffine)
      (List.replicate vars.length 0)
    .ok (row, constTerm)

/-- From the source's `unique_order_preserving`. -/
def unique_order_preserving (l : List String) : List String :=
  l.foldl (fun acc x => if x ∈ acc then acc else acc ++ [x]) []

/-- Modelled from the spec (§6): the `FindVariables` collaborator — the
variable names referenced by an expression.  The source wraps the result
in a Python `set`, whose iteration order is hash-dependent; this model
enumerates names in traversal order (every theorem below is insensitive
to the enumeration order). -/
def collectVarNames : Expr → List String
  | .intLit _ => []
  | .var s => [s]
  | .add a b => collectVarNames a ++ collectVarNames b
  | .mul a b => collectVarNames a ++ collectVarNames b
  | .quotient a b => collectVarNames a ++ collectVarNames b

/-- From `construct_affine_array_access_function_representation`: the
coefficient matrix `F`, offset column `f` and ordered variable basis of
the array access function given by the dimension expressions. -/
def construct_affine_array_access_function_representation
    (array_dimensions_expr : List Expr) (additional_variables : List String) :
    Except ExprError (List (List Int) × List (List Int) × List String) :=
  if ¬ additional_variables.all (fun v => pyLower v = v) then
    .error .assertionFailed
  else
    let collected := unique_order_preserving
      ((array_dimensions_expr.foldr (fun e acc => collectVarNames e ++ acc) []).map
        pyLower)
    let vars := unique_order_preserving (additional_variables ++ collected)
    do
      let rows ← array_dimensions_expr.mapM (fun e => generate_row e vars)
      .ok (rows.map (·.1), rows.map (fun r => [r.2]), vars)

/-! ## The IR and the loop-bound normalizer

The IR node kinds the normalizer traverses: loops (induction-variable
symbol, bounds, body), conditionals and a representative leaf statement
(assignment).  Induction variables are modelled by their name.  The tree
collaborators (`FindNodes(Loop, greedy=True)`, `get_nested_loops`,
`SubstituteExpressions`, `Transformer`) are modelled from the spec's
description of their interfaces (§6). -/

structure LoopRange where
  start : Expr
  stop : Expr
  step : Option Expr
deriving DecidableEq, Repr

mutual
inductive Node
  | loop (varName : String) (bounds : LoopRange) (body : NodeList)
  | conditional (condition : Expr) (body elseBody : NodeList)
  | assignment (lhs : String) (rhs : Expr)
deriving DecidableEq, Repr

inductive NodeList
  | nil
  | cons (head : Node) (tail : NodeList)
deriving DecidableEq, Repr
end

def NodeList.toList : NodeList → List Node
  | .nil => []
  | .cons n t => n :: t.toList

def mapNodeList (f : Node → Node) : NodeList → NodeList
  | .nil => .nil
  | .cons n t => .cons (f n) (mapNodeList f t)

def Node.isLoop : Node → Bool
  | .loop _ _ _ => true
  | _ => false

/-- Modelled from the spec (§6): the expression-substitution collaborator
`SubstituteExpressions`, for the maps the normalizer builds — at most one
entry, keyed by a loop's induction variable. -/
def substExpr (m : Option (String × Expr)) : Expr → Expr
  | .intLit n => .intLit n
  | .var s =>
      match m with
      | some (v, e) => if v = s then e else .var s
      | none => .var s
  | .add a b => .add (substExpr m a) (substExpr m b)
  | .mul a b => .mul (substExpr m a) (substExpr m b)
  | .quotient a b => .quotient (substExpr m a) (substExpr m b)

def substRange (m : Option (String × Expr)) (r : LoopRange) : LoopRange :=
  ⟨substExpr m r.start, substExpr m r.stop, r.step.map (substExpr m)⟩

mutual
def substNode (m : Option (String × Expr)) : Node → Node
  | .loop v b body => .loop v (substRange m b) (substNodeList m body)
  | .conditional c t e =>
      .conditional (substExpr m c) (substNodeList m t) (substNodeList m e)
  | .assignment l r => .assignment l (substExpr m r)

def substNodeList (m : Option (String × Expr)) : NodeList → NodeList
  | .nil => .nil
  | .cons n t => .cons (substNode m n) (substNodeList m t)
end

mutual
/-- Modelled from the spec (§6): `FindNodes(Loop, greedy=True).visit` —
every maximal loop found under a node, without recursing into the children
of a found loop. -/
def findLoopsGreedy : Node → List Node
  | .loop v b body => [.loop v b body]
  | .conditional _ t e => findLoopsGreedyList t ++ findLoopsGreedyList e
  | .assignment _ _ => []

def findLoopsGreedyList : NodeList → List Node
  | .nil => []
  | .cons n t => findLoopsGreedy n ++ findLoopsGreedyList t
end

/-- The `Loop` nodes that are direct elements of a body sequence, in
order — the loops `_implementation_get_nested_loops` collects from
`loop.body` before recursing. -/
def directLoops : NodeList → List Node
  | .nil => []
  | .cons n t => (if n.isLoop then [n] else []) ++ directLoops t

mutual
/-- From `_implementation_get_nested_loops` (and `get_nested_loops`): the
generator first yields the direct `Loop` elements of the body, then
recurses into each of them in order.  Loops nested behind a non-`Loop`
node (for instance inside a conditional) are not visited. -/
def getNestedLoopsImpl : Node → List Node
  | .loop _ _ body => directLoops body ++ nestedLoopsDescend body
  | .conditional _ t _ => directLoops t ++ nestedLoopsDescend t
  | .assignment _ _ => []

def nestedLoopsDescend : NodeList → List Node
  | .nil => []
  | .cons n t =>
      (if n.isLoop then getNestedLoopsImpl n else []) ++ nestedLoopsDescend t
end

/-- From `get_nested_loops`. -/
def get_nested_loops (n : Node) : List Node :=
  (if n.isLoop then [n] else []) ++ getNestedLoopsImpl n

/-- `dict.get(element, element)` over the structural `new_node` map. -/
def assoc_get (m : List (Node × Node)) (k : Node) : Option Node :=
  match m with
  | [] => none
  | (k', v) :: rest => if k' = k then some v else assoc_get rest k

/-- `if c is None: c = IntLiteral(1)`. -/
def step_or_one (step : Option Expr) : Expr :=
  step.getD (.intLit 1)

def exprIsOne (e : Expr) : Bool :=
  e == Expr.intLit 1

/-- The source's already-normalized test `a == c == 1` (both the start and
the `None`-defaulted step equal the literal `1`). -/
def loop_already_normalized (bounds : LoopRange) : Bool :=
  exprIsOne bounds.start && exprIsOne (step_or_one bounds.step)

/-- From `normalize_bounds`: the remap
`_simplify((loop_variable - 1) * c + a)` for the loop's variable. -/
def remap_expr (v : String) (bounds : LoopRange) : Expr :=
  simplify_ia_cc
    (.add (.mul (.add (.var v) (.intLit (-1))) (step_or_one bounds.step))
      bounds.start)

/-- From `normalize_bounds`: the new stop expression — exact integer floor
division `(b.value - a.value) // c.value + 1` when all three bounds are
integer literals (the `try` path), and the symbolic
`_simplify((b - a) / c + 1)` otherwise (the `except AttributeError`
path, a true division). -/
def upper_bound_expr (bounds : LoopRange) : Expr :=
  match bounds.start, bounds.stop, step_or_one bounds.step with
  | .intLit av, .intLit bv, .intLit cv => .intLit ((bv - av).fdiv cv + 1)
  | _, _, _ =>
      simplify_ia_cc
        (.add (.quotient (.add bounds.stop (.mul (.intLit (-1)) bounds.start))
          (step_or_one bounds.step)) (.intLit 1))

/-- The bounds after `SubstituteExpressionsMapper(loop_bounds_map)`:
`LoopRange(1, upper_bound, 1)` when the loop is rewritten, the original
bounds when the map is empty. -/
def normalized_range (bounds : LoopRange) : LoopRange :=
  if loop_already_normalized bounds then bounds
  else ⟨.intLit 1, upper_bound_expr bounds, some (.intLit 1)⟩

/-- The `loop_variable_map` of `normalize_bounds`: empty when the loop is
already normalized, else the single-entry remap substitution. -/
def loop_variable_map (v : String) (bounds : LoopRange) :
    Option (String × Expr) :=
  if loop_already_normalized bounds then none
  else some (v, remap_expr v bounds)

/-- One iteration of the `for loop_node in reversed(nested_loops)` body of
`normalize_bounds`: the accumulator carries `(mapped_bounds, new_body,
new_node)`. -/
def processLoop
    (acc : Option LoopRange × Option NodeList × List (Node × Node)) :
    Node → Option LoopRange × Option NodeList × List (Node × Node)
  | .loop v bounds body =>
      let copy_body := mapNodeList (fun el => (assoc_get acc.2.2 el).getD el) body
      let new_body := substNodeList (loop_variable_map v bounds) copy_body
      (some (normalized_range bounds), some new_body,
        (Node.loop v bounds body,
          Node.loop v (normalized_range bounds) new_body) :: acc.2.2)
  | _ => acc

mutual
/-- Modelled from the spec (§6): the `Transformer` collaborator — replace
every node found in the map by its image (not recursing into the
replacement), rebuild everything else. -/
def transformNode (m : List (Node × Node)) : Node → Node
  | .loop v b body =>
      match assoc_get m (.loop v b body) with
      | some r => r
      | none => .loop v b (transformNodeList m body)
  | .conditional c t e =>
      match assoc_get m (.conditional c t e) with
      | some r => r
      | none => .conditional c (transformNodeList m t) (transformNodeList m e)
  | .assignment l r =>
      match assoc_get m (.assignment l r) with
      | some r' => r'
      | none => .assignment l r

def transformNodeList (m : List (Node × Node)) : NodeList → NodeList
  | .nil => .nil
  | .cons n t => .cons (transformNode m n) (transformNodeList m t)
end

/-- The body of the `for loop_start in loops_greedy` loop of
`normalize_bounds`: walk the nest innermost-first and record the rewritten
nest root in the transformer map (the source guards on `mapped_bounds`/
`new_body` being set, which holds whenever the nest is nonempty). -/
def transformer_entry (tm : List (Node × Node)) (loop_start : Node) :
    List (Node × Node) :=
  let nested_loops := get_nested_loops loop_start
  let folded := nested_loops.reverse.foldl processLoop (none, none, [])
  match folded.1, folded.2.1, loop_start with
  | some mapped_bounds, some new_body, .loop v _ _ =>
      (loop_start, Node.loop v mapped_bounds new_body) :: tm
  | _, _, _ => tm

/-- From `normalize_bounds` (`analyse_dependency_detection.py`): for every
greedily found maximal loop, walk its nested loops innermost-first,
rewriting bounds to `(1, N, 1)` and substituting the induction variable by
its remap throughout the (already rewritten) body, then apply the
accumulated loop replacements to the input tree. -/
def normalize_bounds (start_node : Node) : Node :=
  let transformer_map := (findLoopsGreedy start_node).foldl transformer_entry []
  transformNode transformer_map start_node

mutual
/-- The structural characterization of what one nest pass computes for a
loop: normalize the bounds, rewrite every directly nested loop first, and
substitute the remap through the (rewritten) body. -/
def normRec : Node → Node
  | .loop v bounds body =>
      .loop v (normalized_range bounds)
        (substNodeList (loop_variable_map v bounds) (normRecChildren body))
  | .conditional c t e => .conditional c t e
  | .assignment l r => .assignment l r

def normRecChildren : NodeList → NodeList
  | .nil => .nil
  | .cons n t => .cons (if n.isLoop then normRec n else n) (normRecChildren t)
end

/-- `start == 1` and `step` either absent (`None`, meaning `1`) or the
literal `1`. -/
def rangeNormalized (b : LoopRange) : Bool :=
  (b.start == Expr.intLit 1) &&
    (b.step == none || b.step == some (Expr.intLit 1))

mutual
/-- Every loop anywhere in the tree (also behind conditionals) has
normalized bounds. -/
def allLoopsNormalized : Node → Bool
  | .loop _ b body => rangeNormalized b && allLoopsNormalizedList body
  | .conditional _ t e => allLoopsNormalizedList t && allLoopsNormalizedList e
  | .assignment _ _ => true

def allLoopsNormalizedList : NodeList → Bool
  | .nil => true
  | .cons n t => allLoopsNormalized n && allLoopsNormalizedList t
end

mutual
/-- Every loop on a directly-nested loop chain from this node has
normalized bounds. -/
def chainNormalized : Node → Bool
  | .loop _ b body => rangeNormalized b && chainNormalizedList body
  | .conditional _ _ _ => true
  | .assignment _ _ => true

def chainNormalizedList : NodeList → Bool
  | .nil => true
  | .cons n t => (if n.isLoop then chainNormalized n else true) && chainNormalizedList t
end

/-! ### Basic facts about substitution and normalized ranges -/

theorem substExpr_none : ∀ e : Expr, substExpr none e = e
  | .intLit _ => rfl
  | .var _ => rfl
  | .add a b => by rw [substExpr, substExpr_none a, substExpr_none b]
  | .mul a b => by rw [substExpr, substExpr_none a, substExpr_none b]
  | .quotient a b => by rw [substExpr, substExpr_none a, substExpr_none b]

theorem substRange_none (r : LoopRange) : substRange none r = r := by
  cases r with
  | mk s e st =>
      unfold substRange
      cases st <;> simp [substExpr_none]

mutual
theorem substNode_none : ∀ n : Node, substNode none n = n
  | .loop v b body => by
      rw [substNode, substRange_none, substNodeList_none body]
  | .conditional c t e => by
      rw [substNode, substExpr_none, substNodeList_none t, substNodeList_none e]
  | .assignment l r => by rw [substNode, substExpr_none]

theorem substNodeList_none : ∀ l : NodeList, substNodeList none l = l
  | .nil => rfl
  | .cons n t => by rw [substNodeList, substNode_none n, substNodeList_none t]
end

theorem isLoop_substNode (m : Option (String × Expr)) (n : Node) :
    (substNode m n).isLoop = n.isLoop := by
  cases n <;> rfl

theorem exprIsOne_iff (e : Expr) : exprIsOne e = true ↔ e = .intLit 1 := by
  simp [exprIsOne]

theorem rangeNormalized_iff (b : LoopRange) :
    rangeNormalized b = true ↔
      b.start = .intLit 1 ∧ (b.step = none ∨ b.step = some (.intLit 1)) := by
  simp [rangeNormalized]

theorem rangeNormalized_of_already {b : LoopRange}
    (h : loop_already_normalized b = true) : rangeNormalized b = true := by
  unfold loop_already_normalized at h
  rw [Bool.and_eq_true, exprIsOne_iff, exprIsOne_iff] at h
  rw [rangeNormalized_iff]
  refine ⟨h.1, ?_⟩
  cases hs : b.step with
  | none => exact Or.inl rfl
  | some s =>
      right
      have h2 := h.2
      unfold step_or_one at h2
      rw [hs] at h2
      simp only [Option.getD_some] at h2
      rw [h2]

theorem rangeNormalized_normalized_range (b : LoopRange) :
    rangeNormalized (normalized_range b) = true := by
  unfold normalized_range
  by_cases h : loop_already_normalized b = true
  · rw [if_pos h]
    exact rangeNormalized_of_already h
  · rw [if_neg h]
    rfl

theorem rangeNormalized_substRange (m : Option (String × Expr))
    {b : LoopRange} (h : rangeNormalized b = true) :
    rangeNormalized (substRange m b) = true := by
  rw [rangeNormalized_iff] at h ⊢
  unfold substRange
  refine ⟨by rw [h.1]; cases m <;> rfl, ?_⟩
  rcases h.2 with hs | hs
  · left; rw [hs]; rfl
  · right; rw [hs]; cases m <;> rfl

theorem chainNormalized_nonloop {n : Node} (h : n.isLoop = false) :
    chainNormalized n = true := by
  cases n with
  | loop v b body => simp [Node.isLoop] at h
  | conditional c t e => rfl
  | assignment l r => rfl

mutual
theorem chainNormalized_subst (m : Option (String × Expr)) :
    ∀ n : Node, chainNormalized n = true →
      chainNormalized (substNode m n) = true
  | .loop v b body, h => by
      rw [chainNormalized, Bool.and_eq_true] at h
      rw [substNode, chainNormalized, Bool.and_eq_true]
      exact ⟨rangeNormalized_substRange m h.1,
        chainNormalizedList_subst m body h.2⟩
  | .conditional c t e, _ => rfl
  | .assignment l r, _ => rfl

theorem chainNormalizedList_subst (m : Option (String × Expr)) :
    ∀ l : NodeList, chainNormalizedList l = true →
      chainNormalizedList (substNodeList m l) = true
  | .nil, _ => rfl
  | .cons n t, h => by
      rw [chainNormalizedList, Bool.and_eq_true] at h
      rw [substNodeList, chainNormalizedList, Bool.and_eq_true]
      refine ⟨?_, chainNormalizedList_subst m t h.2⟩
      rw [isLoop_substNode]
      by_cases hn : n.isLoop = true
      · rw [if_pos hn]
        rw [if_pos hn] at h
        exact chainNormalized_subst m n h.1
      · rw [if_neg hn]
  end

mutual
theorem chainNormalized_normRec : ∀ n : Node, chainNormalized (normRec n) = true
  | .loop v b body => by
      rw [normRec, chainNormalized, Bool.and_eq_true]
      exact ⟨rangeNormalized_normalized_range b,
        chainNormalizedList_subst _ _ (chainNormalizedList_normRecChildren body)⟩
  | .conditional c t e => rfl
  | .assignment l r => rfl

theorem chainNormalizedList_normRecChildren :
    ∀ l : NodeList, chainNormalizedList (normRecChildren l) = true
  | .nil => rfl
  | .cons n t => by
      rw [normRecChildren, chainNormalizedList, Bool.and_eq_true]
      refine ⟨?_, chainNormalizedList_normRecChildren t⟩
      by_cases hn : n.isLoop = true
      · rw [if_pos hn]
        cases n with
        | loop v b body =>
            rw [if_pos (by rfl : (normRec (Node.loop v b body)).isLoop = true)]
            exact chainNormalized_normRec _
        | conditional c te ee => simp [Node.isLoop] at hn
        | assignment lh rh => simp [Node.isLoop] at hn
      · rw [if_neg hn]
        split
        · exact chainNormalized_nonloop (by simpa using hn)
        · rfl
end

/-! ### Nested-loop membership carries normalized bounds along chains -/

def Node.bodyList : Node → NodeList
  | .loop _ _ b => b
  | .conditional _ t _ => t
  | .assignment _ _ => .nil

theorem mem_directLoops_iff :
    ∀ (l : NodeList) (n : Node),
      n ∈ directLoops l ↔ n ∈ l.toList ∧ n.isLoop = true
  | .nil, n => by simp [directLoops, NodeList.toList]
  | .cons m t, n => by
      rw [directLoops, NodeList.toList]
      by_cases hm : m.isLoop = true
      · rw [if_pos hm]
        simp only [List.mem_append, List.mem_singleton, List.mem_cons,
          List.not_mem_nil, or_false, mem_directLoops_iff t n]
        constructor
        · rintro (rfl | ⟨hmem, hl⟩)
          · exact ⟨Or.inl rfl, hm⟩
          · exact ⟨Or.inr hmem, hl⟩
        · rintro ⟨rfl | hmem, hl⟩
          · exact Or.inl rfl
          · exact Or.inr ⟨hmem, hl⟩
      · rw [if_neg hm]
        simp only [List.nil_append, List.mem_cons, mem_directLoops_iff t n]
        constructor
        · rintro ⟨hmem, hl⟩
          exact ⟨Or.inr hmem, hl⟩
        · rintro ⟨rfl | hmem, hl⟩
          · exact absurd hl hm
          · exact ⟨hmem, hl⟩

theorem chainNormalized_of_mem_directLoops :
    ∀ (l : NodeList), chainNormalizedList l = true →
      ∀ {n : Node}, n ∈ directLoops l → chainNormalized n = true
  | .nil, _, n, hmem => by simp [directLoops] at hmem
  | .cons m t, hl, n, hmem => by
      rw [chainNormalizedList, Bool.and_eq_true] at hl
      rw [directLoops] at hmem
      by_cases hm : m.isLoop = true
      · rw [if_pos hm] at hmem
        rcases List.mem_append.mp hmem with hh | ht
        · rw [List.mem_singleton] at hh
          subst hh
          rw [if_pos hm] at hl
          exact hl.1
        · exact chainNormalized_of_mem_directLoops t hl.2 ht
      · rw [if_neg hm, List.nil_append] at hmem
        exact chainNormalized_of_mem_directLoops t hl.2 hmem

theorem rangeNormalized_of_mem_directLoops {l : NodeList}
    (hl : chainNormalizedList l = true) {v : String} {b : LoopRange}
    {bd : NodeList} (hmem : Node.loop v b bd ∈ directLoops l) :
    rangeNormalized b = true := by
  have h := chainNormalized_of_mem_directLoops l hl hmem
  rw [chainNormalized, Bool.and_eq_true] at h
  exact h.1

mutual
theorem rangeNormalized_of_mem_impl :
    ∀ n : Node, chainNormalized n = true → n.isLoop = true →
      ∀ v b bd, Node.loop v b bd ∈ getNestedLoopsImpl n →
        rangeNormalized b = true
  | .loop v0 b0 bd0, h, _, v, b, bd, hmem => by
      rw [chainNormalized, Bool.and_eq_true] at h
      rw [getNestedLoopsImpl] at hmem
      rcases List.mem_append.mp hmem with hd | hn
      · exact rangeNormalized_of_mem_directLoops h.2 hd
      · exact rangeNormalized_of_mem_descend bd0 h.2 v b bd hn
  | .conditional c t e, _, hl, v, b, bd, hmem => by
      simp [Node.isLoop] at hl
  | .assignment lh rh, _, hl, v, b, bd, hmem => by
      simp [Node.isLoop] at hl

theorem rangeNormalized_of_mem_descend :
    ∀ l : NodeList, chainNormalizedList l = true →
      ∀ v b bd, Node.loop v b bd ∈ nestedLoopsDescend l →
        rangeNormalized b = true
  | .nil, _, v, b, bd, hmem => by simp [nestedLoopsDescend] at hmem
  | .cons n t, h, v, b, bd, hmem => by
      rw [chainNormalizedList, Bool.and_eq_true] at h
      rw [nestedLoopsDescend] at hmem
      rcases List.mem_append.mp hmem with hh | ht
      · by_cases hn : n.isLoop = true
        · rw [if_pos hn] at hh
          have hcn : chainNormalized n = true := by
            rw [if_pos hn] at h
            exact h.1
          exact rangeNormalized_of_mem_impl n hcn hn v b bd hh
        · rw [if_neg hn] at hh
          simp at hh
      · exact rangeNormalized_of_mem_descend t h.2 v b bd ht
end

theorem rangeNormalized_of_mem_nested {g : Node}
    (hg : chainNormalized g = true) (hl : g.isLoop = true)
    {v : String} {b : LoopRange} {bd : NodeList}
    (hmem : Node.loop v b bd ∈ get_nested_loops g) :
    rangeNormalized b = true := by
  rw [get_nested_loops, if_pos hl] at hmem
  rcases List.mem_append.mp hmem with hh | ht
  · rw [List.mem_singleton] at hh
    subst hh
    rw [chainNormalized, Bool.and_eq_true] at hg
    exact hg.1
  · exact rangeNormalized_of_mem_impl g hg hl v b bd ht

/-! ### The `new_node` replacement map built by the nest walk -/

/-- Invariant of the `new_node` map: keys are loops, values their
normalized forms. -/
def mapInv (nn : List (Node × Node)) : Prop :=
  ∀ p ∈ nn, p.1.isLoop = true ∧ p.2 = normRec p.1

def keyMem (nn : List (Node × Node)) (k : Node) : Prop :=
  ∃ r, assoc_get nn k = some r

theorem mapInv_nil : mapInv [] := by
  intro p hp
  simp at hp

theorem assoc_get_inv : ∀ {nn : List (Node × Node)}, mapInv nn →
    ∀ {k r : Node}, assoc_get nn k = some r → r = normRec k := by
  intro nn
  induction nn with
  | nil => intro _ k r h; simp [assoc_get] at h
  | cons e rest ih =>
      intro hI k r h
      rw [assoc_get] at h
      by_cases he : e.1 = k
      · rw [if_pos he] at h
        have := (hI e (by simp)).2
        rw [← (Option.some.inj h), this, he]
      · rw [if_neg he] at h
        exact ih (fun p hp => hI p (by simp [hp])) h

theorem assoc_get_nonloop : ∀ {nn : List (Node × Node)}, mapInv nn →
    ∀ {k : Node}, k.isLoop = false → assoc_get nn k = none := by
  intro nn
  induction nn with
  | nil => intro _ k _; rfl
  | cons e rest ih =>
      intro hI k hk
      rw [assoc_get]
      have he : e.1 ≠ k := by
        intro hek
        have := (hI e (by simp)).1
        rw [hek, hk] at this
        exact Bool.false_ne_true this
      rw [if_neg he]
      exact ih (fun p hp => hI p (by simp [hp])) hk

theorem keyMem_cons {nn : List (Node × Node)} {k : Node} (e : Node × Node)
    (h : keyMem nn k) : keyMem (e :: nn) k := by
  obtain ⟨r, hr⟩ := h
  rw [keyMem]
  by_cases he : e.1 = k
  · exact ⟨e.2, by rw [assoc_get, if_pos he]⟩
  · exact ⟨r, by rw [assoc_get, if_neg he]; exact hr⟩

theorem keyMem_head {nn : List (Node × Node)} (k v : Node) :
    keyMem ((k, v) :: nn) k :=
  ⟨v, by rw [assoc_get, if_pos rfl]⟩

/-- One `processLoop` step on a loop whose direct loop children are all in
the map computes exactly the `normRec` rewrite of that loop. -/
theorem mapNodeList_assoc_normRec {nn : List (Node × Node)} (hI : mapInv nn) :
    ∀ l : NodeList, (∀ n ∈ l.toList, n.isLoop = true → keyMem nn n) →
      mapNodeList (fun el => (assoc_get nn el).getD el) l = normRecChildren l
  | .nil, _ => rfl
  | .cons n t, hc => by
      rw [mapNodeList, normRecChildren,
        mapNodeList_assoc_normRec hI t
          (fun m hm hl => hc m (by rw [NodeList.toList]; exact List.mem_cons_of_mem _ hm) hl)]
      congr 1
      by_cases hn : n.isLoop = true
      · obtain ⟨r, hr⟩ := hc n (by rw [NodeList.toList]; exact List.mem_cons_self _ _) hn
        rw [hr, Option.getD_some, if_pos hn, assoc_get_inv hI hr]
      · rw [assoc_get_nonloop hI (by simpa using hn), Option.getD_none, if_neg hn]

/-- One `processLoop` step on a loop whose direct loop children are all in
the map computes exactly the `normRec` rewrite of that loop. -/
theorem processLoop_eq {mb : Option LoopRange} {nb : Option NodeList}
    {nn : List (Node × Node)} (hI : mapInv nn) (v : String) (b : LoopRange)
    (body : NodeList)
    (hch : ∀ n ∈ body.toList, n.isLoop = true → keyMem nn n) :
    processLoop (mb, nb, nn) (.loop v b body) =
      (some (normalized_range b),
        some (substNodeList (loop_variable_map v b) (normRecChildren body)),
        (Node.loop v b body, normRec (.loop v b body)) :: nn) := by
  rw [processLoop, mapNodeList_assoc_normRec hI body hch, normRec]
/-! ### The innermost-first walk over a nest computes `normRec` -/

/-- `for loop_node in reversed(nested_loops): …` — folding from the right
over the nested-loop list. -/
def processFold (l : List Node)
    (acc : Option LoopRange × Option NodeList × List (Node × Node)) :
    Option LoopRange × Option NodeList × List (Node × Node) :=
  l.foldr (fun n a => processLoop a n) acc

theorem processFold_append (l1 l2 : List Node) (acc) :
    processFold (l1 ++ l2) acc = processFold l1 (processFold l2 acc) :=
  List.foldr_append _ _ _ _

theorem fold_direct : ∀ (ds : List Node) (acc), mapInv acc.2.2 →
    (∀ n ∈ ds, n.isLoop = true) →
    (∀ n ∈ ds, ∀ m ∈ directLoops n.bodyList, keyMem acc.2.2 m) →
    mapInv (processFold ds acc).2.2 ∧
    (∀ k, keyMem acc.2.2 k → keyMem (processFold ds acc).2.2 k) ∧
    (∀ n ∈ ds, keyMem (processFold ds acc).2.2 n) := by
  intro ds
  induction ds with
  | nil =>
      intro acc hI _ _
      exact ⟨hI, fun k h => h, by simp⟩
  | cons d rest ih =>
      intro acc hI hloops hch
      obtain ⟨hI1, hmono1, hmem1⟩ := ih acc hI
        (fun n hn => hloops n (List.mem_cons_of_mem _ hn))
        (fun n hn => hch n (List.mem_cons_of_mem _ hn))
      have hd : d.isLoop = true := hloops d (List.mem_cons_self _ _)
      cases d with
      | conditional c t e => simp [Node.isLoop] at hd
      | assignment lh rh => simp [Node.isLoop] at hd
      | loop v b body =>
          have hch' : ∀ n ∈ body.toList, n.isLoop = true →
              keyMem (processFold rest acc).2.2 n := by
            intro n hn hl
            exact hmono1 n (hch _ (List.mem_cons_self _ _) n
              ((mem_directLoops_iff body n).mpr ⟨hn, hl⟩))
          have hstep : processFold (Node.loop v b body :: rest) acc
              = processLoop (processFold rest acc) (.loop v b body) := rfl
          rcases hacc1 : processFold rest acc with ⟨mb1, nb1, nn1⟩
          rw [hacc1] at hI1 hmono1 hmem1 hch'
          rw [hstep, hacc1, processLoop_eq hI1 v b body hch']
          refine ⟨?_, ?_, ?_⟩
          · intro p hp
            rcases List.mem_cons.mp hp with rfl | hp2
            · exact ⟨rfl, rfl⟩
            · exact hI1 p hp2
          · intro k hk
            exact keyMem_cons _ (hmono1 k hk)
          · intro n hn
            rcases List.mem_cons.mp hn with rfl | hn2
            · exact keyMem_head _ _
            · exact keyMem_cons _ (hmem1 n hn2)

mutual
theorem fold_impl : ∀ (n : Node), n.isLoop = true → ∀ acc, mapInv acc.2.2 →
    mapInv (processFold (getNestedLoopsImpl n) acc).2.2 ∧
    (∀ k, keyMem acc.2.2 k →
      keyMem (processFold (getNestedLoopsImpl n) acc).2.2 k) ∧
    (∀ m ∈ directLoops n.bodyList,
      keyMem (processFold (getNestedLoopsImpl n) acc).2.2 m)
  | .loop v b body, _, acc, hI => by
      have heq : processFold (getNestedLoopsImpl (.loop v b body)) acc
          = processFold (directLoops body)
              (processFold (nestedLoopsDescend body) acc) := by
        rw [getNestedLoopsImpl, processFold_append]
      obtain ⟨hI1, hm1, hc1⟩ := fold_descend body acc hI
      obtain ⟨hI2, hm2, hmem2⟩ := fold_direct (directLoops body)
        (processFold (nestedLoopsDescend body) acc) hI1
        (fun n hn => ((mem_directLoops_iff body n).mp hn).2)
        (fun n hn m hm => hc1 n ((mem_directLoops_iff body n).mp hn).1
          ((mem_directLoops_iff body n).mp hn).2 m hm)
      rw [heq]
      exact ⟨hI2, fun k hk => hm2 k (hm1 k hk), hmem2⟩
  | .conditional c t e, hl, acc, hI => by simp [Node.isLoop] at hl
  | .assignment lh rh, hl, acc, hI => by simp [Node.isLoop] at hl

theorem fold_descend : ∀ (l : NodeList) (acc), mapInv acc.2.2 →
    mapInv (processFold (nestedLoopsDescend l) acc).2.2 ∧
    (∀ k, keyMem acc.2.2 k →
      keyMem (processFold (nestedLoopsDescend l) acc).2.2 k) ∧
    (∀ n ∈ l.toList, n.isLoop = true → ∀ m ∈ directLoops n.bodyList,
      keyMem (processFold (nestedLoopsDescend l) acc).2.2 m)
  | .nil, acc, hI => ⟨hI, fun k h => h, by simp [NodeList.toList]⟩
  | .cons n t, acc, hI => by
      obtain ⟨hIt, hmt, hct⟩ := fold_descend t acc hI
      by_cases hn : n.isLoop = true
      · have heq : processFold (nestedLoopsDescend (.cons n t)) acc
            = processFold (getNestedLoopsImpl n)
                (processFold (nestedLoopsDescend t) acc) := by
          rw [nestedLoopsDescend, if_pos hn, processFold_append]
        obtain ⟨hIi, hmi, hci⟩ := fold_impl n hn
          (processFold (nestedLoopsDescend t) acc) hIt
        rw [heq]
        refine ⟨hIi, fun k hk => hmi k (hmt k hk), ?_⟩
        intro x hx hlx m hm
        rw [NodeList.toList] at hx
        rcases List.mem_cons.mp hx with rfl | hx2
        · exact hci m hm
        · exact hmi m (hct x hx2 hlx m hm)
      · have heq : processFold (nestedLoopsDescend (.cons n t)) acc
            = processFold (nestedLoopsDescend t) acc := by
          rw [nestedLoopsDescend, if_neg hn, List.nil_append]
        rw [heq]
        refine ⟨hIt, hmt, ?_⟩
        intro x hx hlx m hm
        rw [NodeList.toList] at hx
        rcases List.mem_cons.mp hx with rfl | hx2
        · exact absurd hlx hn
        · exact hct x hx2 hlx m hm
end

/-- Folding `processLoop` innermost-first over a whole nest leaves the
normalized bounds and the rewritten body of the nest root in the
accumulator — exactly the fields `normalize_bounds` reads off to build
the transformer entry. -/
theorem fold_nest (v : String) (b : LoopRange) (body : NodeList) (acc)
    (hI : mapInv acc.2.2) :
    (processFold (get_nested_loops (.loop v b body)) acc).1
        = some (normalized_range b) ∧
      (processFold (get_nested_loops (.loop v b body)) acc).2.1
        = some (substNodeList (loop_variable_map v b) (normRecChildren body)) := by
  have heq : processFold (get_nested_loops (.loop v b body)) acc
      = processLoop (processFold (getNestedLoopsImpl (.loop v b body)) acc)
          (.loop v b body) := by
    rw [get_nested_loops]
    rfl
  obtain ⟨hIi, hmi, hci⟩ := fold_impl (.loop v b body) rfl acc hI
  rcases hacc1 : processFold (getNestedLoopsImpl (.loop v b body)) acc
    with ⟨mb1, nb1, nn1⟩
  rw [hacc1] at hIi hci
  have hch : ∀ n ∈ body.toList, n.isLoop = true → keyMem nn1 n := by
    intro n hnmem hl
    exact hci n ((mem_directLoops_iff body n).mpr ⟨hnmem, hl⟩)
  rw [heq, hacc1, processLoop_eq hIi v b body hch]
  exact ⟨rfl, rfl⟩

/-! ### The transformer map and the final rewrite pass -/

theorem transformer_entry_loop (tm : List (Node × Node)) (v : String)
    (b : LoopRange) (bd : NodeList) :
    transformer_entry tm (.loop v b bd) =
      (Node.loop v b bd, normRec (.loop v b bd)) :: tm := by
  unfold transformer_entry
  have hbridge : (get_nested_loops (.loop v b bd)).reverse.foldl processLoop
      ((none : Option LoopRange), (none : Option NodeList),
        ([] : List (Node × Node)))
      = processFold (get_nested_loops (.loop v b bd)) (none, none, []) := by
    rw [processFold, List.foldl_reverse]
  obtain ⟨h1, h2⟩ := fold_nest v b bd (none, none, []) mapInv_nil
  dsimp only
  rw [hbridge, h1, h2]
  rfl

theorem build_tm : ∀ (gs : List Node) (tm0 : List (Node × Node)),
    (∀ g ∈ gs, g.isLoop = true) →
    (∀ p ∈ gs.foldl transformer_entry tm0,
        p ∈ tm0 ∨ ∃ g ∈ gs, p = (g, normRec g)) ∧
    (∀ k, keyMem tm0 k → keyMem (gs.foldl transformer_entry tm0) k) ∧
    (∀ g ∈ gs, keyMem (gs.foldl transformer_entry tm0) g) := by
  intro gs
  induction gs with
  | nil =>
      intro tm0 _
      exact ⟨fun p hp => Or.inl hp, fun k hk => hk, by simp⟩
  | cons g rest ih =>
      intro tm0 hloops
      have hg : g.isLoop = true := hloops g (List.mem_cons_self _ _)
      cases g with
      | conditional c t e => simp [Node.isLoop] at hg
      | assignment lh rh => simp [Node.isLoop] at hg
      | loop v b bd =>
          have hstep : (Node.loop v b bd :: rest).foldl transformer_entry tm0
              = rest.foldl transformer_entry
                  ((Node.loop v b bd, normRec (.loop v b bd)) :: tm0) := by
            rw [List.foldl_cons, transformer_entry_loop]
          obtain ⟨hmem, hmono, hcompl⟩ := ih
            ((Node.loop v b bd, normRec (.loop v b bd)) :: tm0)
            (fun g' hg' => hloops g' (List.mem_cons_of_mem _ hg'))
          rw [hstep]
          refine ⟨?_, ?_, ?_⟩
          · intro p hp
            rcases hmem p hp with hp0 | ⟨g', hg', hpe⟩
            · rcases List.mem_cons.mp hp0 with rfl | hp1
              · exact Or.inr ⟨.loop v b bd, List.mem_cons_self _ _, rfl⟩
              · exact Or.inl hp1
            · exact Or.inr ⟨g', List.mem_cons_of_mem _ hg', hpe⟩
          · intro k hk
            exact hmono k (keyMem_cons _ hk)
          · intro g' hg'
            rcases List.mem_cons.mp hg' with rfl | hg2
            · exact hmono _ (keyMem_head _ _)
            · exact hcompl g' hg2

mutual
theorem greedy_isLoop : ∀ n : Node, ∀ g ∈ findLoopsGreedy n, g.isLoop = true
  | .loop v b bd, g, hg => by
      rw [findLoopsGreedy, List.mem_singleton] at hg
      subst hg
      rfl
  | .conditional c t e, g, hg => by
      rw [findLoopsGreedy] at hg
      rcases List.mem_append.mp hg with h | h
      · exact greedy_isLoop_list t g h
      · exact greedy_isLoop_list e g h
  | .assignment lh rh, g, hg => by simp [findLoopsGreedy] at hg

theorem greedy_isLoop_list :
    ∀ l : NodeList, ∀ g ∈ findLoopsGreedyList l, g.isLoop = true
  | .nil, g, hg => by simp [findLoopsGreedyList] at hg
  | .cons n t, g, hg => by
      rw [findLoopsGreedyList] at hg
      rcases List.mem_append.mp hg with h | h
      · exact greedy_isLoop n g h
      · exact greedy_isLoop_list t g h
end

mutual
theorem greedy_allNormalized :
    ∀ n : Node, allLoopsNormalized n = true →
      ∀ g ∈ findLoopsGreedy n, allLoopsNormalized g = true
  | .loop v b bd, h, g, hg => by
      rw [findLoopsGreedy, List.mem_singleton] at hg
      subst hg
      exact h
  | .conditional c t e, h, g, hg => by
      rw [allLoopsNormalized, Bool.and_eq_true] at h
      rw [findLoopsGreedy] at hg
      rcases List.mem_append.mp hg with hm | hm
      · exact greedy_allNormalized_list t h.1 g hm
      · exact greedy_allNormalized_list e h.2 g hm
  | .assignment lh rh, _, g, hg => by simp [findLoopsGreedy] at hg

theorem greedy_allNormalized_list :
    ∀ l : NodeList, allLoopsNormalizedList l = true →
      ∀ g ∈ findLoopsGreedyList l, allLoopsNormalized g = true
  | .nil, _, g, hg => by simp [findLoopsGreedyList] at hg
  | .cons n t, h, g, hg => by
      rw [allLoopsNormalizedList, Bool.and_eq_true] at h
      rw [findLoopsGreedyList] at hg
      rcases List.mem_append.mp hg with hm | hm
      · exact greedy_allNormalized n h.1 g hm
      · exact greedy_allNormalized_list t h.2 g hm
end

theorem assoc_get_mem : ∀ {m : List (Node × Node)} {k r : Node},
    assoc_get m k = some r → (k, r) ∈ m := by
  intro m
  induction m with
  | nil => intro k r h; simp [assoc_get] at h
  | cons e rest ih =>
      intro k r h
      obtain ⟨ke, ve⟩ := e
      rw [assoc_get] at h
      by_cases he : ke = k
      · rw [if_pos he] at h
        have hv : ve = r := Option.some.inj h
        rw [← he, ← hv]
        exact List.mem_cons_self _ _
      · rw [if_neg he] at h
        exact List.mem_cons_of_mem _ (ih h)

theorem assoc_get_none_of_keys_loop {m : List (Node × Node)}
    (hm : ∀ p ∈ m, p.1.isLoop = true) {k : Node} (hk : k.isLoop = false) :
    assoc_get m k = none := by
  induction m with
  | nil => rfl
  | cons e rest ih =>
      rw [assoc_get]
      have he : e.1 ≠ k := by
        intro hek
        have := hm e (by simp)
        rw [hek, hk] at this
        exact Bool.false_ne_true this
      rw [if_neg he]
      exact ih (fun p hp => hm p (by simp [hp]))

mutual
theorem greedy_transform : ∀ (n : Node) (m : List (Node × Node)),
    (∀ p ∈ m, p.1.isLoop = true) → (∀ p ∈ m, p.2.isLoop = true) →
    (∀ g ∈ findLoopsGreedy n, keyMem m g) →
    findLoopsGreedy (transformNode m n) =
      (findLoopsGreedy n).map (fun g => (assoc_get m g).getD g)
  | .loop v b bd, m, hk, hv, hc => by
      obtain ⟨r, hr⟩ := hc _ (by rw [findLoopsGreedy]; exact List.mem_singleton.mpr rfl)
      rw [transformNode, hr]
      have hrl : r.isLoop = true := hv _ (assoc_get_mem hr)
      cases r with
      | conditional rc rt re => simp [Node.isLoop] at hrl
      | assignment rl rr => simp [Node.isLoop] at hrl
      | loop v' b' bd' =>
          rw [findLoopsGreedy, findLoopsGreedy, List.map_cons, List.map_nil, hr]
          rfl
  | .conditional c t e, m, hk, hv, hc => by
      rw [transformNode,
        assoc_get_none_of_keys_loop hk (by rfl : (Node.conditional c t e).isLoop = false)]
      rw [findLoopsGreedy, findLoopsGreedy, List.map_append]
      rw [greedy_transform_list t m hk hv
          (fun g hg => hc g (by rw [findLoopsGreedy]; exact List.mem_append_left _ hg)),
        greedy_transform_list e m hk hv
          (fun g hg => hc g (by rw [findLoopsGreedy]; exact List.mem_append_right _ hg))]
  | .assignment lh rh, m, hk, hv, hc => by
      rw [transformNode,
        assoc_get_none_of_keys_loop hk (by rfl : (Node.assignment lh rh).isLoop = false)]
      rfl

theorem greedy_transform_list : ∀ (l : NodeList) (m : List (Node × Node)),
    (∀ p ∈ m, p.1.isLoop = true) → (∀ p ∈ m, p.2.isLoop = true) →
    (∀ g ∈ findLoopsGreedyList l, keyMem m g) →
    findLoopsGreedyList (transformNodeList m l) =
      (findLoopsGreedyList l).map (fun g => (assoc_get m g).getD g)
  | .nil, m, _, _, _ => rfl
  | .cons n t, m, hk, hv, hc => by
      rw [transformNodeList, findLoopsGreedyList, findLoopsGreedyList,
        List.map_append]
      rw [greedy_transform n m hk hv
          (fun g hg => hc g (by rw [findLoopsGreedyList]; exact List.mem_append_left _ hg)),
        greedy_transform_list t m hk hv
          (fun g hg => hc g (by rw [findLoopsGreedyList]; exact List.mem_append_right _ hg))]
end

mutual
theorem transform_id : ∀ (n : Node) (m : List (Node × Node)),
    (∀ p ∈ m, p.2 = p.1) → transformNode m n = n
  | .loop v b bd, m, h => by
      rw [transformNode]
      cases hr : assoc_get m (Node.loop v b bd) with
      | some r =>
          have := h _ (assoc_get_mem hr)
          exact this
      | none => rw [transform_id_list bd m h]
  | .conditional c t e, m, h => by
      rw [transformNode]
      cases hr : assoc_get m (Node.conditional c t e) with
      | some r => exact h _ (assoc_get_mem hr)
      | none => rw [transform_id_list t m h, transform_id_list e m h]
  | .assignment lh rh, m, h => by
      rw [transformNode]
      cases hr : assoc_get m (Node.assignment lh rh) with
      | some r => exact h _ (assoc_get_mem hr)
      | none => rfl

theorem transform_id_list : ∀ (l : NodeList) (m : List (Node × Node)),
    (∀ p ∈ m, p.2 = p.1) → transformNodeList m l = l
  | .nil, _, _ => rfl
  | .cons n t, m, h => by
      rw [transformNodeList, transform_id n m h, transform_id_list t m h]
end

theorem isLoop_normRec (n : Node) : (normRec n).isLoop = n.isLoop := by
  cases n <;> rfl

/-- The transformer map `normalize_bounds` builds over the greedy loops of
`root` maps every greedy loop to its `normRec` rewrite. -/
theorem normalize_tm_spec (root : Node) :
    (∀ p ∈ (findLoopsGreedy root).foldl transformer_entry [],
        p.1 ∈ findLoopsGreedy root ∧ p.2 = normRec p.1) ∧
    (∀ g ∈ findLoopsGreedy root,
        assoc_get ((findLoopsGreedy root).foldl transformer_entry []) g
          = some (normRec g)) := by
  obtain ⟨hmem, _, hcompl⟩ := build_tm (findLoopsGreedy root) []
    (greedy_isLoop root)
  have hshape : ∀ p ∈ (findLoopsGreedy root).foldl transformer_entry [],
      p.1 ∈ findLoopsGreedy root ∧ p.2 = normRec p.1 := by
    intro p hp
    rcases hmem p hp with hp0 | ⟨g, hg, rfl⟩
    · simp at hp0
    · exact ⟨hg, rfl⟩
  refine ⟨hshape, ?_⟩
  intro g hg
  obtain ⟨r, hr⟩ := hcompl g hg
  have hI : mapInv ((findLoopsGreedy root).foldl transformer_entry []) := by
    intro p hp
    obtain ⟨hpg, hpe⟩ := hshape p hp
    exact ⟨greedy_isLoop root p.1 hpg, hpe⟩
  rw [hr, assoc_get_inv hI hr]

/-- After `normalize_bounds`, every loop reachable through the greedy find
plus directly-nested loop chains — exactly the loops the source walks —
has start `1` and unit step. -/
theorem normalize_bounds_chains_normalized (root : Node) :
    ∀ g ∈ findLoopsGreedy (normalize_bounds root), ∀ v b bd,
      Node.loop v b bd ∈ get_nested_loops g → rangeNormalized b = true := by
  intro g hg v b bd hmem
  obtain ⟨hshape, hcompl⟩ := normalize_tm_spec root
  have hkeys : ∀ p ∈ (findLoopsGreedy root).foldl transformer_entry [],
      p.1.isLoop = true :=
    fun p hp => greedy_isLoop root p.1 (hshape p hp).1
  have hvals : ∀ p ∈ (findLoopsGreedy root).foldl transformer_entry [],
      p.2.isLoop = true := by
    intro p hp
    rw [(hshape p hp).2, isLoop_normRec]
    exact greedy_isLoop root p.1 (hshape p hp).1
  have htrans := greedy_transform root
    ((findLoopsGreedy root).foldl transformer_entry []) hkeys hvals
    (fun g0 hg0 => ⟨normRec g0, hcompl g0 hg0⟩)
  rw [normalize_bounds] at hg
  rw [htrans] at hg
  obtain ⟨g0, hg0, rfl⟩ := List.mem_map.mp hg
  rw [hcompl g0 hg0, Option.getD_some] at hmem
  exact rangeNormalized_of_mem_nested (chainNormalized_normRec g0)
    (by rw [isLoop_normRec]; exact greedy_isLoop root g0 hg0) hmem

/-! ### Idempotence on already-normalized trees -/

theorem already_of_rangeNormalized {b : LoopRange}
    (h : rangeNormalized b = true) : loop_already_normalized b = true := by
  rw [rangeNormalized_iff] at h
  unfold loop_already_normalized
  rw [Bool.and_eq_true, exprIsOne_iff, exprIsOne_iff]
  refine ⟨h.1, ?_⟩
  rcases h.2 with hs | hs <;> rw [step_or_one, hs] <;> rfl

mutual
theorem normRec_id : ∀ n : Node, allLoopsNormalized n = true → normRec n = n
  | .loop v b bd, h => by
      rw [allLoopsNormalized, Bool.and_eq_true] at h
      have halready := already_of_rangeNormalized h.1
      rw [normRec, normalized_range, if_pos halready, loop_variable_map,
        if_pos halready, substNodeList_none, normRecChildren_id bd h.2]
  | .conditional c t e, _ => rfl
  | .assignment lh rh, _ => rfl

theorem normRecChildren_id :
    ∀ l : NodeList, allLoopsNormalizedList l = true → normRecChildren l = l
  | .nil, _ => rfl
  | .cons n t, h => by
      rw [allLoopsNormalizedList, Bool.and_eq_true] at h
      rw [normRecChildren, normRecChildren_id t h.2]
      by_cases hn : n.isLoop = true
      · rw [if_pos hn, normRec_id n h.1]
      · rw [if_neg hn]
end

/-- On a tree in which every loop already has start `1` and unit step,
`normalize_bounds` is the identity. -/
theorem normalize_bounds_id_of_normalized {root : Node}
    (h : allLoopsNormalized root = true) : normalize_bounds root = root := by
  rw [normalize_bounds]
  apply transform_id
  intro p hp
  obtain ⟨hmemg, hval⟩ := (normalize_tm_spec root).1 p hp
  rw [hval, normRec_id p.1 (greedy_allNormalized root h p.1 hmemg)]

/-! ## Claim theorems -/

mutual
/-- The bounds of every `Loop` node in a tree, in traversal order. -/
def all_loop_ranges : Node → List LoopRange
  | .loop _ b body => b :: all_loop_ranges_list body
  | .conditional _ t e => all_loop_ranges_list t ++ all_loop_ranges_list e
  | .assignment _ _ => []

def all_loop_ranges_list : NodeList → List LoopRange
  | .nil => []
  | .cons n t => all_loop_ranges n ++ all_loop_ranges_list t
end

/-- A loop whose body hides a non-normalized loop behind a conditional:
`do i = 1, 10, 1 { if p { do j = 2, 20, 3 { x = j } } }`. -/
def conditional_loop_example : Node :=
  .loop "i" ⟨.intLit 1, .intLit 10, some (.intLit 1)⟩
    (.cons (.conditional (.var "p")
      (.cons (.loop "j" ⟨.intLit 2, .intLit 20, some (.intLit 3)⟩
        (.cons (.assignment "x" (.var "j")) .nil)) .nil)
      .nil) .nil)

/-- C1: loop-bound normalization preserves the iteration sequence — for all
integer bounds `(a, b, c)` with `c ≠ 0`, the remapped index list
`[(k-1)*c + a for k = 1..N]` with `N = (b-a)//c + 1` (floor division) is
exactly the original iteration sequence of `do i = a, b, c`; and the loop
`do i = 2, 20, 3` is normalized to bounds `(1, 7, 1)` with every body
occurrence of `i` replaced by an expression equal to `(i_new - 1)*3 + 2`. -/
theorem normalization_preserves_iteration_sequence :
    (∀ a b c : Int, c ≠ 0 →
      remapped_index_list a b c = loop_iteration_sequence a b c) ∧
    (∃ e : Expr,
      normalize_bounds (.loop "i" ⟨.intLit 2, .intLit 20, some (.intLit 3)⟩
          (.cons (.assignment "x" (.var "i")) .nil)) =
        .loop "i" ⟨.intLit 1, .intLit 7, some (.intLit 1)⟩
          (.cons (.assignment "x" e) .nil) ∧
      ∀ ρ : String → Int, evalExpr ρ e = (ρ "i" - 1) * 3 + 2) := by
  constructor
  · intro a b c hc
    exact remapped_index_list_eq_iteration_sequence hc
  · refine ⟨.add (.mul (.intLit 3) (.var "i")) (.intLit (-1)), by decide, ?_⟩
    intro ρ
    simp only [evalExpr]
    ring

theorem normalization_preserves_iteration_sequence_witness :
    remapped_index_list 2 20 3 = loop_iteration_sequence 2 20 3 :=
  normalization_preserves_iteration_sequence.1 2 20 3 (by decide)

/-- C2 counterexample: on a loop whose body hides a second loop behind a
conditional, `normalize_bounds` leaves that inner loop with start `2` and
step `3` — not every `Loop` node of the returned tree is normalized. -/
theorem normalize_bounds_misses_loop_behind_conditional :
    all_loop_ranges (normalize_bounds conditional_loop_example) =
      [⟨.intLit 1, .intLit 10, some (.intLit 1)⟩,
        ⟨.intLit 2, .intLit 20, some (.intLit 3)⟩] ∧
    rangeNormalized ⟨.intLit 2, .intLit 20, some (.intLit 3)⟩ = false := by
  exact ⟨by decide, by decide⟩

/-- C2 (amended): `normalize_bounds(root)` normalizes every loop the source
actually walks — every loop reachable from a greedily found maximal loop
of the result through chains of *directly* body-nested loops has
`start == 1` and `step == 1` (a step of `None` counting as `1`); loops
nested behind a non-loop node (e.g. inside a conditional in a loop body)
are not visited. -/
theorem normalize_bounds_normalizes_nested_chains :
    ∀ root : Node, ∀ g ∈ findLoopsGreedy (normalize_bounds root),
      ∀ v b bd, Node.loop v b bd ∈ get_nested_loops g →
        b.start = .intLit 1 ∧ (b.step = none ∨ b.step = some (.intLit 1)) := by
  intro root g hg v b bd hmem
  exact (rangeNormalized_iff b).mp
    (normalize_bounds_chains_normalized root g hg v b bd hmem)

theorem normalize_bounds_normalizes_nested_chains_witness :
    (LoopRange.mk (.intLit 1) (.intLit 7) (some (.intLit 1))).start = .intLit 1 ∧
      ((LoopRange.mk (.intLit 1) (.intLit 7) (some (.intLit 1))).step = none ∨
        (LoopRange.mk (.intLit 1) (.intLit 7) (some (.intLit 1))).step
          = some (.intLit 1)) :=
  normalize_bounds_normalizes_nested_chains
    (.loop "i" ⟨.intLit 2, .intLit 20, some (.intLit 3)⟩
      (.cons (.assignment "x" (.var "i")) .nil))
    (.loop "i" ⟨.intLit 1, .intLit 7, some (.intLit 1)⟩
      (.cons (.assignment "x"
        (.add (.mul (.intLit 3) (.var "i")) (.intLit (-1)))) .nil))
    (by decide) "i" _
    (.cons (.assignment "x"
      (.add (.mul (.intLit 3) (.var "i")) (.intLit (-1)))) .nil)
    (by decide)

/-- C3: the elimination raises `NoIntegerSolution` whenever it pivots on a
row whose augmented entry the GCD of the row's coefficients does not
divide, aborting the whole computation; concretely `[2, 4 | 3]` fails
(`gcd(2,4) = 2` does not divide `3`), `[2, 4 | 6]` succeeds, and a
violation in a later pivot (second row of `[[1,0,1],[0,2,3]]`) aborts the
whole run. -/
theorem rref_gcd_condition_feasibility :
    (∀ (row : List Int) (rows : List (List Int)),
        row.headD 0 ≠ 0 →
        np_remainder (row.getLastD 0) (gcd_of_list row.dropLast) ≠ 0 →
        row_echelon_form_under_gcd_condition (row :: rows) =
          .error .noIntegerSolution) ∧
    row_echelon_form_under_gcd_condition [[2, 4, 3]] =
      .error .noIntegerSolution ∧
    row_echelon_form_under_gcd_condition [[2, 4, 6]] = .ok [[1, 2, 3]] ∧
    row_echelon_form_under_gcd_condition [[1, 0, 1], [0, 2, 3]] =
      .error .noIntegerSolution := by
  refine ⟨?_, rfl, rfl, rfl⟩
  intro row rows h1 h2
  exact rref_error_of_first_pivot_gcd_violation row rows
    (by simp only [leading_nonzero, bne_iff_ne, ne_eq, decide_not]; simpa using h1) h2

theorem rref_gcd_condition_feasibility_witness :
    row_echelon_form_under_gcd_condition [[2, 4, 3]] =
      .error .noIntegerSolution :=
  rref_gcd_condition_feasibility.1 [2, 4, 3] [] (by decide) (by decide)

/-- C4: the affine access-function builder on the dimension expressions of
the spec's examples, over the basis `["i", "j"]` — identity accesses,
`2*i+j`, `i-1`, and the non-affine `i*j` which fails with the non-affine
error. -/
theorem affine_access_function_representation_examples :
    construct_affine_array_access_function_representation
        [.var "i", .var "j"] ["i", "j"] =
      .ok ([[1, 0], [0, 1]], [[0], [0]], ["i", "j"]) ∧
    construct_affine_array_access_function_representation
        [.add (.mul (.intLit 2) (.var "i")) (.var "j")] ["i", "j"] =
      .ok ([[2, 1]], [[0]], ["i", "j"]) ∧
    construct_affine_array_access_function_representation
        [.add (.var "i") (.intLit (-1))] ["i", "j"] =
      .ok ([[1, 0]], [[-1]], ["i", "j"]) ∧
    construct_affine_array_access_function_representation
        [.mul (.var "i") (.var "j")] ["i", "j"] =
      .error .nonAffine :=
  ⟨rfl, rfl, rfl, rfl⟩

/-- C5 counterexample: `row_echelon_form_under_gcd_condition` does *not*
leave the caller's matrix unchanged — after the call on `[[2, 4, 6]]` the
argument array holds `[[1, 2, 3]]` (the in-place row operations act on the
caller's array and its views). -/
theorem rref_argument_is_mutated :
    row_echelon_argument_after_call [[2, 4, 6]] ≠ [[2, 4, 6]] ∧
      row_echelon_argument_after_call [[2, 4, 6]] = [[1, 2, 3]] := by
  exact ⟨by decide, rfl⟩

/-- C5 (amended): the elimination routines mutate their matrix argument in
place; on success the argument ends up holding exactly the returned
(freshly assembled) row-echelon matrix. -/
theorem rref_mutates_argument_to_result :
    ∀ (A R : List (List Int)),
      row_echelon_form_under_gcd_condition A = .ok R →
      row_echelon_argument_after_call A = R := by
  intro A R h
  unfold row_echelon_argument_after_call
  unfold row_echelon_form_under_gcd_condition at h
  exact generate_rref_argument_eq_result _ _ _ _ _ h

theorem rref_mutates_argument_to_result_witness :
    row_echelon_argument_after_call [[2, 4, 6]] = [[1, 2, 3]] :=
  rref_mutates_argument_to_result [[2, 4, 6]] [[1, 2, 3]] rfl

/-- C6: interval soundness of `binary_operation` — for every operation
that is monotone (non-decreasing or non-increasing) in each argument
separately on the operand rectangle and all values inside the operand
intervals (or equal to the scalar operand), the result of the operation
lies within the returned interval, which is the min/max over the sampled
corner combinations; `+`, `-` and `*` are such operations on every
rectangle, and integer division `//` (`Int.fdiv`) is such an operation
whenever the divisor operand is sign-consistent (entirely positive or
entirely negative). -/
theorem binary_operation_interval_sound :
    (∀ (op : Int → Int → Int) (x y : IntervalOperand),
      MonotoneInEachArgumentOn op x.toRange y.toRange →
      ∀ x0 y0 : Int, x.contains x0 → y.contains y0 →
        (x.isRange = true ∨ y.isRange = true) →
        ∃ r, binary_operation op x y = some r ∧
          r.start ≤ op x0 y0 ∧ op x0 y0 ≤ r.stop) ∧
    (∀ xr yr : RangeIndex, MonotoneInEachArgumentOn (· + ·) xr yr) ∧
    (∀ xr yr : RangeIndex, MonotoneInEachArgumentOn (· - ·) xr yr) ∧
    (∀ xr yr : RangeIndex, MonotoneInEachArgumentOn (· * ·) xr yr) ∧
    (∀ xr yr : RangeIndex, (0 < yr.start ∨ yr.stop < 0) →
      MonotoneInEachArgumentOn (fun a b => Int.fdiv a b) xr yr) :=
  ⟨fun _ _ _ hop _ _ hx hy hr => interval_sound_operands hop hx hy hr,
    monotone_on_of_global monotone_add,
    monotone_on_of_global monotone_sub,
    monotone_on_of_global monotone_mul,
    monotone_fdiv_on_sign_consistent⟩

theorem binary_operation_interval_sound_witness :
    ∃ r, binary_operation (fun a b => Int.fdiv a b)
        (.range ⟨3, 8⟩) (.range ⟨2, 2⟩) = some r ∧
      r.start ≤ Int.fdiv 5 2 ∧ Int.fdiv 5 2 ≤ r.stop :=
  binary_operation_interval_sound.1 (fun a b => Int.fdiv a b)
    (.range ⟨3, 8⟩) (.range ⟨2, 2⟩)
    (binary_operation_interval_sound.2.2.2.2 ⟨3, 8⟩ ⟨2, 2⟩ (Or.inl (by decide)))
    5 2 ⟨by decide, by decide⟩ ⟨by decide, by decide⟩ (Or.inl rfl)

/-- C7: idempotence — on a tree in which every loop already has start `1`
and step `1` (a step of `None` counting as `1`), `normalize_bounds`
returns the tree structurally unchanged. -/
theorem normalize_bounds_idempotent_on_normalized :
    ∀ root : Node, allLoopsNormalized root = true →
      normalize_bounds root = root :=
  fun _ h => normalize_bounds_id_of_normalized h

theorem normalize_bounds_idempotent_on_normalized_witness :
    normalize_bounds
        (.loop "i" ⟨.intLit 1, .var "n", none⟩
          (.cons (.loop "j" ⟨.intLit 1, .var "i", some (.intLit 1)⟩
            (.cons (.assignment "x" (.var "j")) .nil)) .nil)) =
      .loop "i" ⟨.intLit 1, .var "n", none⟩
        (.cons (.loop "j" ⟨.intLit 1, .var "i", some (.intLit 1)⟩
          (.cons (.assignment "x" (.var "j")) .nil)) .nil) :=
  normalize_bounds_idempotent_on_normalized
    (.loop "i" ⟨.intLit 1, .var "n", none⟩
      (.cons (.loop "j" ⟨.intLit 1, .var "i", some (.intLit 1)⟩
        (.cons (.assignment "x" (.var "j")) .nil)) .nil)) (by decide)

/-- C9 counterexample: with the 2×2 identity matrix and the 2×1 right-hand
side `[[3], [4]]`, `yield_one_d_systems` yields a single pair (zipping
`matrix.T` with the one row of `rhs.T`), not one pair per column. -/
theorem yield_one_d_systems_not_one_per_column :
    (yield_one_d_systems [[1, 0], [0, 1]] [[3], [4]] true).length ≠ 2 ∧
      yield_one_d_systems [[1, 0], [0, 1]] [[3], [4]] true =
        [(.two [[1], [0]], .two [[3], [4]])] := by
  exact ⟨by decide, rfl⟩

/-- C9 (amended): for a matrix of positive width and an `n × 1` right-hand
side, `yield_one_d_systems` yields exactly one pair, which couples the
*first* matrix column with the whole right-hand side; with
`drop_zero_rows` the scalar mask either keeps every row or (only when
column and right-hand side are entirely zero) drops them all. -/
theorem yield_one_d_systems_single_pair_claim :
    ∀ (M R : List (List Int)) (drop : Bool),
      0 < (M.headD []).length → (R.headD []).length = 1 →
      yield_one_d_systems M R drop =
        [if drop then
          (if ((M.map fun row => row.getD 0 0) ++
              (R.map fun row => row.getD 0 0)).all (· == 0) then
            (.two (List.replicate M.length []), .two (List.replicate R.length []))
          else
            (.two ((M.map fun row => row.getD 0 0).map fun x => [x]),
              .two ((R.map fun row => row.getD 0 0).map fun x => [x])))
        else
          (.one (M.map fun row => row.getD 0 0),
            .one (R.map fun row => row.getD 0 0))] :=
  fun M R drop hM hR => yield_one_d_systems_single_pair M R drop hM hR

theorem yield_one_d_systems_single_pair_claim_witness :
    yield_one_d_systems [[1, 0], [0, 1]] [[3], [4]] false =
      [(.one [1, 0], .one [3, 4])] := by
  have h := yield_one_d_systems_single_pair_claim [[1, 0], [0, 1]] [[3], [4]]
    false (by decide) (by decide)
  simpa using h

/-- C10 counterexample: on the 1×1 matrix `[[2]]`,
`row_echelon_form_under_gcd_condition` neither raises `ZeroDivisionError`
nor `NoIntegerSolution` — numpy's integer remainder with divisor `0`
(here `2 % gcd()` with the empty coefficient slice, i.e. `2 % 0`)
evaluates to `0` with a `RuntimeWarning`, so the guard passes and the
elimination returns `[[1]]`. -/
theorem single_column_pivot_returns_result :
    row_echelon_form_under_gcd_condition [[2]] = .ok [[1]] ∧
      np_remainder 2 (gcd_of_list (([2] : List Int).dropLast)) = 0 :=
  ⟨rfl, rfl⟩

/-- C10 (amended): for every 1×1 matrix with a nonzero entry the GCD guard
degenerates — `gcd()` of the empty coefficient slice is `0` and numpy
evaluates `A[0,-1] % 0` to `0` — so no exception is raised and the
routine returns the matrix with its single row floor-divided by the
pivot. -/
theorem single_column_pivot_no_exception :
    ∀ x : Int, x ≠ 0 →
      row_echelon_form_under_gcd_condition [[x]] = .ok [[1]] := by
  intro x hx
  unfold row_echelon_form_under_gcd_condition
  have hfind : List.findIdx? leading_nonzero [[x]] = some 0 := by
    rw [List.findIdx?_cons, if_pos]
    simp only [leading_nonzero, List.headD_cons, bne_iff_ne, ne_eq, decide_not]
    simpa using hx
  rw [show (([[x]] : List (List Int)).headD []).length = 1 from rfl]
  rw [generate_reduced_row_echelon_form, if_neg (by simp), hfind]
  dsimp only
  rw [if_neg (by omega : ¬ 0 > 0)]
  have hcheck : gcd_condition [[x]] = .ok () := by
    unfold gcd_condition
    rw [if_neg]
    simp [np_remainder, gcd_of_list]
  rw [hcheck]
  dsimp only [pivot_and_eliminate]
  simp only [List.headD_cons, List.map_cons, List.map_nil]
  rw [Int.fdiv_self hx]
  rfl

theorem single_column_pivot_no_exception_witness :
    row_echelon_form_under_gcd_condition [[2]] = .ok [[1]] :=
  single_column_pivot_no_exception 2 (by decide)

end LokiProof

